import Mathlib

/-!
Verification of the linear asset-pricing estimators of
`linearmodels/asset_pricing/model.py` against their natural-language
specification.

Shallow-embedding conventions used throughout this development:

* numpy float arrays are modelled as matrices over `ℚ` (exact arithmetic);
  `Mat m n` is `Matrix (Fin m) (Fin n) ℚ`;
* external numerical services (`numpy.linalg.pinv`, `numpy.linalg.lstsq`,
  `scipy.optimize.minimize`) are passed to the embedded estimators as oracle
  functions, mirroring the specification's treatment of them as external
  collaborators ("pseudo-inverse", "generic numerical optimizer");
* `numpy.linalg.inv` is embedded exactly: it fails (`LinAlgError`) on a
  singular matrix and produces the true inverse otherwise;
* Python exceptions are modelled with `Except ModelError`.
-/

open Matrix in
/-- Matrices over the rationals, the value domain of the embedding. -/
abbrev Mat (m n : ℕ) : Type := Matrix (Fin m) (Fin n) ℚ

open Matrix

set_option allowUnsafeReducibility true in
attribute [semireducible] Rat.add Rat.mul Rat.inv Rat.sub

/-- Decompose an index of `Fin (a*b)` into `(t % a, t / a)` (column-major pair). -/
def idxModDiv (a b : ℕ) (t : Fin (a * b)) : Fin a × Fin b :=
  ⟨⟨(t : ℕ) % a, Nat.mod_lt _ (by
      rcases Nat.eq_zero_or_pos a with h | h
      · exact absurd t.isLt (by simp [h])
      · exact h)⟩,
   ⟨(t : ℕ) / a, Nat.div_lt_of_lt_mul t.isLt⟩⟩

/-- Shift an index of `Fin L` into the window `[off, off+L)` of `Fin m`. -/
def finShift {m : ℕ} (off L : ℕ) (h : off + L ≤ m) (i : Fin L) : Fin m :=
  ⟨off + (i : ℕ), by have := i.isLt; omega⟩

/-- Square sub-block of a square matrix starting at diagonal offset `off`. -/
def sliceBlock {m : ℕ} (off L : ℕ) (h : off + L ≤ m) (A : Mat m m) : Mat L L :=
  Matrix.of fun i j => A (finShift off L h i) (finShift off L h j)

/-- Horizontal concatenation, `np.c_[A, B]`. -/
def hcat {m a b : ℕ} (A : Mat m a) (B : Mat m b) : Mat m (a + b) :=
  Matrix.of fun i j =>
    if h : (j : ℕ) < a then A i ⟨j, h⟩
    else B i ⟨(j : ℕ) - a, by have := j.isLt; omega⟩

/-- Entrywise division of a matrix by a scalar (numpy `A / c`). -/
def mdiv {m n : ℕ} (A : Mat m n) (c : ℚ) : Mat m n :=
  Matrix.of fun i j => A i j / c

/-- Elementwise (Hadamard) product, numpy `A * B`. -/
def hada {m n : ℕ} (A B : Mat m n) : Mat m n :=
  Matrix.of fun i j => A i j * B i j

/-- Column means as a column vector, `A.mean(0)[:, None]`. -/
def meanCols {T M : ℕ} (A : Mat T M) : Mat M 1 :=
  Matrix.of fun j _ => (∑ t, A t j) / (T : ℚ)

/-- Subtract each column's mean from the column, `A - A.mean(0)[None, :]`. -/
def demeanCols {T M : ℕ} (A : Mat T M) : Mat T M :=
  Matrix.of fun i j => A i j - (∑ t, A t j) / (T : ℚ)

/-- Sum of squared entries, `(A ** 2).sum()`. -/
def sumSq {m n : ℕ} (A : Mat m n) : ℚ := ∑ i, ∑ j, (A i j) ^ 2

/-- Identity matrix with explicit entries, `np.eye n`. -/
def eyeQ (n : ℕ) : Mat n n :=
  Matrix.of fun i j => if (i : ℕ) = (j : ℕ) then 1 else 0

/-- Kronecker product with numpy's index layout:
`np.kron(A, B)[i, j] = A[i / p, j / q] * B[i % p, j % q]`. -/
def npKron {m n p q : ℕ} (A : Mat m n) (B : Mat p q) : Mat (m * p) (n * q) :=
  Matrix.of fun i j =>
    A (idxModDiv p m ⟨(i : ℕ), lt_of_lt_of_eq i.isLt (Nat.mul_comm m p)⟩).2
      (idxModDiv q n ⟨(j : ℕ), lt_of_lt_of_eq j.isLt (Nat.mul_comm n q)⟩).2 *
    B (idxModDiv p m ⟨(i : ℕ), lt_of_lt_of_eq i.isLt (Nat.mul_comm m p)⟩).1
      (idxModDiv q n ⟨(j : ℕ), lt_of_lt_of_eq j.isLt (Nat.mul_comm n q)⟩).1

/-- Horizontal replication `np.tile(A, (1, r))`: column `j` is column `j % n` of `A`. -/
def tileCols {m n : ℕ} (A : Mat m n) (r : ℕ) : Mat m (r * n) :=
  Matrix.of fun i j =>
    A i (idxModDiv n r ⟨(j : ℕ), lt_of_lt_of_eq j.isLt (Nat.mul_comm r n)⟩).1

/-- Vertical replication `np.tile(A, (r, 1))`: row `i` is row `i % m` of `A`. -/
def tileRows {m n : ℕ} (A : Mat m n) (r : ℕ) : Mat (r * m) n :=
  Matrix.of fun i j =>
    A (idxModDiv m r ⟨(i : ℕ), lt_of_lt_of_eq i.isLt (Nat.mul_comm r m)⟩).1 j

/-- Column-major flattening, `.ravel(order='F')`. -/
def ravelF {a b : ℕ} (A : Mat a b) : Fin (a * b) → ℚ :=
  fun t => A (idxModDiv a b t).1 (idxModDiv a b t).2

/-- Row-major flattening, `.ravel()` (C order). -/
def ravelC {a b : ℕ} (A : Mat a b) : Fin (a * b) → ℚ :=
  fun t =>
    A (idxModDiv b a ⟨(t : ℕ), lt_of_lt_of_eq t.isLt (Nat.mul_comm a b)⟩).2
      (idxModDiv b a ⟨(t : ℕ), lt_of_lt_of_eq t.isLt (Nat.mul_comm a b)⟩).1

/-- Column-major reshape to `(c, d)`, `.reshape((c, d), order='F')`. -/
def reshapeF {n : ℕ} (v : Fin n → ℚ) (c d : ℕ) (h : c * d = n) : Mat c d :=
  Matrix.of fun i j =>
    v (Fin.cast h ⟨(j : ℕ) * c + (i : ℕ), by
      have hi := i.isLt
      have hj := j.isLt
      have h1 : (j : ℕ) * c + (i : ℕ) < ((j : ℕ) + 1) * c := by
        rw [Nat.add_mul, Nat.one_mul]; omega
      have h2 : ((j : ℕ) + 1) * c ≤ d * c := Nat.mul_le_mul_right c (by omega)
      calc (j : ℕ) * c + (i : ℕ) < ((j : ℕ) + 1) * c := h1
        _ ≤ d * c := h2
        _ = c * d := Nat.mul_comm d c⟩)

/-- Row-major reshape to `(c, d)`, `.reshape((c, d))` (C order). -/
def reshapeC {n : ℕ} (v : Fin n → ℚ) (c d : ℕ) (h : c * d = n) : Mat c d :=
  Matrix.of fun i j =>
    v (Fin.cast h ⟨(i : ℕ) * d + (j : ℕ), by
      have hi := i.isLt
      have hj := j.isLt
      have h1 : (i : ℕ) * d + (j : ℕ) < ((i : ℕ) + 1) * d := by
        rw [Nat.add_mul, Nat.one_mul]; omega
      have h2 : ((i : ℕ) + 1) * d ≤ c * d := Nat.mul_le_mul_right d (by omega)
      omega⟩)

/-- Error vocabulary. `valueError` and `linAlgError` are what the source can
actually raise (its one `raise ValueError(...)` statement, and
`numpy.linalg.LinAlgError` out of `numpy.linalg.inv`); the remaining
constructors are the error types named by the specification's error taxonomy,
included so that the specification's claims about them can be stated. -/
inductive ModelError where
  | valueError (msg : String)
  | linAlgError
  | configurationError
  | singularJacobianError
  | singularMatrixError
deriving DecidableEq, Repr

/-- Determinant by Laplace expansion along the first row (the kernel-reducible
normal form of `Matrix.det`, see `Matrix.det_succ_row_zero`). -/
def detQ : {n : ℕ} → Mat n n → ℚ
  | 0, _ => 1
  | n + 1, A =>
    ∑ j : Fin (n + 1),
      (-1 : ℚ) ^ (j : ℕ) * A 0 j * detQ (A.submatrix Fin.succ j.succAbove)

/-- Adjugate by explicit cofactors (the kernel-reducible normal form of
`Matrix.adjugate`, see `Matrix.adjugate_apply`). -/
def adjQ {n : ℕ} (A : Mat n n) : Mat n n :=
  Matrix.of fun i j =>
    detQ (A.updateRow j fun b => if b = i then 1 else 0)

/-- Computable inverse of a rational matrix (equal to Mathlib's `A⁻¹`). -/
def matInv {n : ℕ} (A : Mat n n) : Mat n n := (detQ A)⁻¹ • adjQ A

/-- Embedding of `numpy.linalg.inv`: raises `LinAlgError` on a singular matrix
and produces the exact inverse otherwise. -/
def npInv {n : ℕ} (A : Mat n n) : Except ModelError (Mat n n) :=
  if detQ A = 0 then .error .linAlgError else .ok (matInv A)

/-- Lag-`j` cross-product matrix `x[j:].T @ x[:-j] / 1` (unscaled), the
building block of the HAC weighted-autocovariance sum. -/
def lagProd {T M : ℕ} (x : Mat T M) (j : ℕ) : Mat M M :=
  Matrix.of fun a b =>
    ∑ t : Fin T, if j ≤ (t : ℕ) then x t a * x ⟨(t : ℕ) - j, by have := t.isLt; omega⟩ b else 0

/-- Modelled from the spec: the named-kernel lag-weight families of
`linearmodels.iv.covariance.KERNEL_LOOKUP`, which are code of this repository
not under `src/` (only their caller is). The spec (§4.1, §6) names three HAC
kernel families, `bartlett`, `parzen` and `qs` (quadratic spectral), each a
normalized kernel with weight `1` at lag `0`; Bartlett and Parzen lag weights
follow their standard closed forms, while the quadratic-spectral tail is
transcendental and is modelled only through its lag-0 value — the only value
the bandwidth-0 claims depend on. The real lookup also receives `nobs - 1`;
the weights of these families do not depend on it. -/
def kernelWeight (kernel : String) (bw : ℕ) (j : ℕ) : ℚ :=
  if j = 0 then 1
  else if kernel = "bartlett" then 1 - (j : ℚ) / ((bw : ℚ) + 1)
  else if kernel = "parzen" then
    let z : ℚ := (j : ℚ) / ((bw : ℚ) + 1)
    if z ≤ 1 / 2 then 1 - 6 * z ^ 2 + 6 * z ^ 3 else 2 * (1 - z) ^ 3
  else 0

/-- Kernel names recognized per the source docstring ('bartlett', 'parzen', 'qs'). -/
def knownKernels : List String := ["bartlett", "parzen", "qs"]

/-- Modelled from the spec: the generic weighted-autocovariance summation
`linearmodels.iv.covariance._cov_kernel`, code of this repository not under
`src/`. Per §4.1 it produces "a weighted sum of lag-j autocovariances for
j = 0..bandwidth, using per-lag weights from the named kernel", the lag-0
term being the contemporaneous outer product and positive lags entering
symmetrized, everything scaled by `nobs`. -/
def covKernel {T M : ℕ} (x : Mat T M) (w : ℕ → ℚ) (bw : ℕ) : Mat M M :=
  mdiv (w 0 • (xᵀ * x) +
    ∑ jj ∈ Finset.Icc 1 bw, w jj • (lagProd x jj + (lagProd x jj)ᵀ)) T

/-- Embedding of `int(np.ceil(4 * (nobs / 100) ** (2 / 9)))` over exact
arithmetic: the least `m` with `4 * (T/100)^(2/9) ≤ m`, characterized by
`4^9 * T^2 ≤ 100^2 * m^9`. -/
def defaultBandwidth (T : ℕ) : ℕ :=
  (((List.range (T + 5)).find? fun m =>
    decide (262144 * T ^ 2 ≤ 10000 * m ^ 9)).getD (T + 5))

/-- Covariance-specific options accepted through `**cov_config`. -/
structure CovConfig where
  kernel : Option String
  bandwidth : Option ℕ
deriving Repr

/-- Stored state of a model object: the two input return matrices and their
column names, fixed at construction (`self.portfolios`, `self.factors`). -/
structure FactorModelData (T a b : ℕ) where
  portfolios : Mat T a
  factors : Mat T b
  portfolioNames : List String
  factorNames : List String

/-- Embedding of `TradedFactorModel.__init__(self, portfolios, factors)`:
the first positional argument (with its column names) is stored as the
portfolio data, the second as the factor data. -/
def TradedFactorModel.init {T a b : ℕ} (portfolios : Mat T a) (factors : Mat T b)
    (portfolioNames factorNames : List String) : FactorModelData T a b :=
  ⟨portfolios, factors, portfolioNames, factorNames⟩

/-- Embedding of `LinearFactorModel.__init__(self, portfolios, factors, *, sigma=None)`:
delegates to the parent constructor in the same positional order
(`sigma` is stored but never used by `fit`, so it is not modelled). -/
def LinearFactorModel.init {T a b : ℕ} (portfolios : Mat T a) (factors : Mat T b)
    (portfolioNames factorNames : List String) : FactorModelData T a b :=
  TradedFactorModel.init portfolios factors portfolioNames factorNames

/-- Embedding of `LinearFactorModelGMM.__init__(self, factors, portfolios)`:
the parameters are declared in the order `(factors, portfolios)` and passed
positionally to the parent constructor, whose parameter order is
`(portfolios, factors)` — so the argument bound to `factors` is stored as the
portfolio data and the argument bound to `portfolios` as the factor data. -/
def LinearFactorModelGMM.init {T a b : ℕ} (factors : Mat T a) (portfolios : Mat T b)
    (factorNames portfolioNames : List String) : FactorModelData T a b :=
  TradedFactorModel.init factors portfolios factorNames portfolioNames

/-- First-stage regressor matrix `fc = np.c_[np.ones((nobs, 1)), f]`. -/
def withConst {T K : ℕ} (f : Mat T K) : Mat T (K + 1) :=
  Matrix.of fun i j =>
    if h : (j : ℕ) = 0 then 1 else f i ⟨(j : ℕ) - 1, by have := j.isLt; omega⟩

/-- The residual replication of `TradedFactorModel.fit` (lines 105-107):
`eps_rep = np.tile(eps, (nfactor+1, 1))`, flattened in Fortran order and
reshaped to `(nobs, (nfactor+1)*nportfolio)` in Fortran order. -/
def epsRepTraded {T N : ℕ} (K : ℕ) (eps : Mat T N) : Mat T (N * (K + 1)) :=
  reshapeF (ravelF (tileRows eps (K + 1))) T (N * (K + 1)) (by ring)

/-- The residual replication used by `LinearFactorModel.fit` (lines 265-266)
and `LinearFactorModelGMM._moments` (line 511):
`np.reshape(np.tile(eps, (k+1, 1)).T, (n*(k+1), nobs)).T`. -/
def epsRepCross {T N : ℕ} (K : ℕ) (eps : Mat T N) : Mat T (N * (K + 1)) :=
  (reshapeC (ravelC (tileRows eps (K + 1))ᵀ) (N * (K + 1)) T (by ring))ᵀ

/-- The stacked instrument-by-residual moment matrix of `TradedFactorModel.fit`
(lines 104-109): `xe = np.c_[f_rep * eps_rep, fe]`. -/
def tradedXe {T N K : ℕ} (fc : Mat T (K + 1)) (eps : Mat T N) (fe : Mat T K) :
    Mat T (N * (K + 1) + K) :=
  hcat (hada (tileCols fc N) (epsRepTraded K eps)) fe

/-- The sandwich bread of `TradedFactorModel.fit` (lines 102-103): the identity
of size `nloading + nfactor` whose top-left block is
`np.kron(np.eye(nportfolio), pinv(fc.T @ fc / nobs))`. -/
def tradedXpxi (N K : ℕ) (fcGramInv : Mat (K + 1) (K + 1)) :
    Mat (N * (K + 1) + K) (N * (K + 1) + K) :=
  Matrix.of fun i j =>
    if hi : (i : ℕ) < N * (K + 1) then
      if hj : (j : ℕ) < N * (K + 1) then
        npKron (eyeQ N) fcGramInv ⟨(i : ℕ), hi⟩ ⟨(j : ℕ), hj⟩
      else 0
    else if (i : ℕ) = (j : ℕ) then 1 else 0

/-- Embedding of the covariance-kind selection of `TradedFactorModel.fit`
(lines 110-121): the `robust`/`heteroskedastic` arm takes contemporaneous
outer products, the `kernel` arm the kernel-weighted sums (with default
kernel `bartlett` and the default bandwidth rule), and any other name raises
`ValueError`. The kernel-name lookup `KERNEL_LOOKUP[kernel]` lives outside
`src/`; per the spec's error taxonomy (§7) an unrecognized kernel name is
modelled as `configurationError`. -/
def tradedCovPair {T N K : ℕ} (covType : String) (cfg : CovConfig)
    (xe : Mat T (N * (K + 1) + K)) (fe : Mat T K) :
    Except ModelError (Mat (N * (K + 1) + K) (N * (K + 1) + K) × Mat K K) :=
  if covType = "robust" ∨ covType = "heteroskedastic" then
    .ok (mdiv (xeᵀ * xe) T, mdiv (feᵀ * fe) T)
  else if covType = "kernel" then
    let kernel := (cfg.kernel).getD "bartlett"
    let bw := (cfg.bandwidth).getD (defaultBandwidth T)
    if kernel ∈ knownKernels then
      .ok (covKernel xe (kernelWeight kernel bw) bw, covKernel fe (kernelWeight kernel bw) bw)
    else .error .configurationError
  else .error (.valueError ("Unknown cov_type: " ++ covType))

/-- The VCV reordering index of `TradedFactorModel.fit` (lines 129-130):
`order = np.reshape(np.arange((nfactor+1)*nportfolio), (nportfolio, nfactor+1))`
(the row-major array `fun q r => q*(K+1)+r`) transposed and raveled in C
order, so entry `j` reads position `(j / N, j % N)` of the transpose. -/
def tradedOrder (N K : ℕ) (j : ℕ) : ℕ :=
  let a : ℕ → ℕ → ℕ := fun q r => q * (K + 1) + r
  a (j % N) (j / N)

/-- `tradedOrder` as a self-map of `Fin (N*(K+1))`. -/
def tradedOrderF {N K : ℕ} (j : Fin (N * (K + 1))) : Fin (N * (K + 1)) :=
  ⟨tradedOrder N K (j : ℕ), by
    have hj := j.isLt
    have hN : 0 < N := by
      rcases Nat.eq_zero_or_pos N with h | h
      · exact absurd hj (by simp [h])
      · exact h
    have h1 : (j : ℕ) % N < N := Nat.mod_lt _ hN
    have h2 : (j : ℕ) / N < K + 1 := Nat.div_lt_of_lt_mul hj
    show ((j : ℕ) % N) * (K + 1) + (j : ℕ) / N < N * (K + 1)
    calc ((j : ℕ) % N) * (K + 1) + (j : ℕ) / N
        < ((j : ℕ) % N) * (K + 1) + (K + 1) := by omega
      _ = ((j : ℕ) % N + 1) * (K + 1) := by ring
      _ ≤ N * (K + 1) := Nat.mul_le_mul_right _ (by omega)⟩

/-- Per-portfolio loading names followed by risk-premia names, as built by
`TradedFactorModel.fit` (lines 143-149). -/
def loadingNames (pnames fnames : List String) : List String :=
  pnames.flatMap fun pn =>
    ("alpha-" ++ pn) :: fnames.map fun fn => "beta-" ++ pn ++ "-" ++ fn

/-- Full parameter-name list of `TradedFactorModel.fit`. -/
def tradedParamNames (pnames fnames : List String) : List String :=
  loadingNames pnames fnames ++ fnames.map fun fn => "lambda-" ++ fn

/-- Result bundle of `TradedFactorModel.fit` (the `AttrDict` of line 151). -/
structure TradedResult (T N K : ℕ) where
  params : Mat N (K + 1)
  cov : Mat (N * (K + 1) + K) (N * (K + 1) + K)
  betas : Mat N K
  rp : Mat K 1
  rpCov : Mat K K
  alphas : Mat N 1
  alphaVcv : Mat N N
  jstat : ℚ
  jstatDf : ℤ
  jstatNull : String
  rsquared : ℚ
  totalSS : ℚ
  residualSS : ℚ
  paramNames : List String
  rpNames : List String
  covType : String
  nobsOut : ℕ

/-- Embedding of `TradedFactorModel.fit` (lines 88-158). `pinvO` is the
external `numpy.linalg.pinv` service, passed as an oracle. Python floats are
`ℚ` here; `debiased` is coerced through `int(bool(debiased))` as in line 122. -/
def tradedFit {T N K : ℕ} (pinvO : (a b : ℕ) → Mat a b → Mat b a)
    (p : Mat T N) (f : Mat T K) (pnames fnames : List String)
    (covType : String) (debiased : Bool) (cfg : CovConfig) :
    Except ModelError (TradedResult T N K) :=
  let fc := withConst f
  let rp := meanCols f
  let fe := demeanCols f
  let b := pinvO T (K + 1) fc * p
  let eps := p - fc * b
  let alphas : Mat N 1 := Matrix.of fun i _ => b ⟨0, Nat.succ_pos K⟩ i
  let xpxi := tradedXpxi N K (pinvO (K + 1) (K + 1) (mdiv (fcᵀ * fc) T))
  let xe := tradedXe fc eps fe
  match tradedCovPair covType cfg xe fe with
  | .error e => .error e
  | .ok (xeex, rpCov0) =>
    let d : ℚ := if debiased then 1 else 0
    let fullVcv := mdiv (xpxi * xeex * xpxi) ((T : ℚ) - d * ((K : ℚ) + 1))
    let vcv := sliceBlock 0 (N * (K + 1)) (by omega) fullVcv
    let rpCov := mdiv rpCov0 ((T : ℚ) - d)
    let vcvOrd : Mat (N * (K + 1)) (N * (K + 1)) :=
      Matrix.of fun i j => vcv (tradedOrderF i) (tradedOrderF j)
    let alphaVcv := sliceBlock 0 N
      (by
        have : N * 1 ≤ N * (K + 1) := Nat.mul_le_mul_left N (by omega)
        omega) vcvOrd
    let stat : ℚ :=
      (alphasᵀ * pinvO N N alphaVcv * alphas) ⟨0, Nat.one_pos⟩ ⟨0, Nat.one_pos⟩
    let residualSS := sumSq eps
    let totalSS := sumSq (demeanCols p)
    .ok
      { params := bᵀ
        cov := fullVcv
        betas := Matrix.of fun i j => b ⟨(j : ℕ) + 1, by have := j.isLt; omega⟩ i
        rp := rp
        rpCov := rpCov
        alphas := alphas
        alphaVcv := alphaVcv
        jstat := stat
        jstatDf := (N : ℤ)
        jstatNull := "All alphas are 0"
        rsquared := 1 - residualSS / totalSS
        totalSS := totalSS
        residualSS := residualSS
        paramNames := tradedParamNames pnames fnames
        rpNames := fnames
        covType := covType
        nobsOut := T }

/-- `nrf = int(not excess_returns)` (LinearFactorModel.fit line 238). -/
abbrev nrfOf (excess : Bool) : ℕ := cond excess 0 1

/-- Number of moment conditions of the two-pass estimator:
`N*(K+1)` residual moments, `K + nrf` normal-equation moments,
`N` pricing-error moments. -/
abbrev tpDim (N K : ℕ) (e : Bool) : ℕ := N * (K + 1) + (K + nrfOf e) + N

/-- First-stage loadings as used in the second pass (lines 248-252): for
excess returns `b[1:].T`; otherwise `b.T` with its first column overwritten
by ones (the risk-free loading). -/
def twoPassBetas {N K : ℕ} (excess : Bool) (b : Mat (K + 1) N) :
    Mat N (K + nrfOf excess) :=
  match excess with
  | true => Matrix.of fun i j =>
      b ⟨(j : ℕ) + 1, by
        have := j.isLt; simp only [nrfOf, Bool.cond_true] at this; omega⟩ i
  | false => Matrix.of fun i j =>
      if (j : ℕ) = 0 then 1
      else b ⟨(j : ℕ), by
        have := j.isLt; simp only [nrfOf, Bool.cond_false] at this; omega⟩ i

/-- `_lam = lam if excess_returns else lam[1:]` (line 281). -/
def lamTilde {K : ℕ} (excess : Bool) (lam : Mat (K + nrfOf excess) 1) : Mat K 1 :=
  match excess, lam with
  | true, lam => lam
  | false, lam => Matrix.of fun i j =>
      lam ⟨(i : ℕ) + 1, by
        have := i.isLt; simp only [nrfOf, Bool.cond_false]; omega⟩ j

/-- `zero_lam = np.r_[[[0]], lam]` for excess returns, else
`np.r_[[[0]], lam[1:]]` (line 290). -/
def zeroLam {K : ℕ} (excess : Bool) (lam : Mat (K + nrfOf excess) 1) : Mat (K + 1) 1 :=
  match excess, lam with
  | true, lam => Matrix.of fun i _ =>
      if hi0 : (i : ℕ) = 0 then 0
      else lam ⟨(i : ℕ) - 1, by
        have := i.isLt; simp only [nrfOf, Bool.cond_true]; omega⟩ ⟨0, Nat.one_pos⟩
  | false, lam => Matrix.of fun i _ =>
      if hi0 : (i : ℕ) = 0 then 0
      else lam ⟨(i : ℕ), by
        have := i.isLt; simp only [nrfOf, Bool.cond_false]; omega⟩ ⟨0, Nat.one_pos⟩

/-- Per-portfolio Jacobian block of `LinearFactorModel.fit` (lines 280-289):
`betas[[q]].T @ _lam.T` minus the alpha-times-identity correction (placed one
row lower when a risk-free loading column is present), with a leading zero
column prepended. -/
def twoPassBlock {N K : ℕ} (excess : Bool) (betas : Mat N (K + nrfOf excess))
    (lam : Mat (K + nrfOf excess) 1) (alphas : Mat N 1) (q : Fin N)
    (a : Fin (K + nrfOf excess)) (c : Fin (K + 1)) : ℚ :=
  if hc : (c : ℕ) = 0 then 0
  else
    betas q a * lamTilde excess lam ⟨(c : ℕ) - 1, by have := c.isLt; omega⟩ ⟨0, Nat.one_pos⟩ -
      (match excess, a with
       | true, a => if (a : ℕ) + 1 = (c : ℕ) then alphas q ⟨0, Nat.one_pos⟩ else 0
       | false, a => if (a : ℕ) = (c : ℕ) then alphas q ⟨0, Nat.one_pos⟩ else 0)

/-- Analytic Jacobian `G` of `LinearFactorModel.fit` (lines 274-291): the
identity of size `tpDim`, with top-left block `kron(eye(N), fc'fc/nobs)`,
middle diagonal block `betas'betas`, per-portfolio middle blocks, and
bottom-left block `kron(eye(N), zero_lam.T)`. -/
def twoPassG {N K : ℕ} (excess : Bool) (fpf : Mat (K + 1) (K + 1))
    (betas : Mat N (K + nrfOf excess)) (lam : Mat (K + nrfOf excess) 1)
    (alphas : Mat N 1) : Mat (tpDim N K excess) (tpDim N K excess) :=
  Matrix.of fun i j =>
    if hi2 : (i : ℕ) < N * (K + 1) then
      if hj2 : (j : ℕ) < N * (K + 1) then
        npKron (eyeQ N) fpf ⟨(i : ℕ), hi2⟩ ⟨(j : ℕ), hj2⟩
      else if (i : ℕ) = (j : ℕ) then 1 else 0
    else if hi3 : (i : ℕ) < N * (K + 1) + (K + nrfOf excess) then
      if hj2 : (j : ℕ) < N * (K + 1) then
        twoPassBlock excess betas lam alphas
          (idxModDiv (K + 1) N ⟨(j : ℕ), lt_of_lt_of_eq hj2 (Nat.mul_comm N (K + 1))⟩).2
          ⟨(i : ℕ) - N * (K + 1), by omega⟩
          (idxModDiv (K + 1) N ⟨(j : ℕ), lt_of_lt_of_eq hj2 (Nat.mul_comm N (K + 1))⟩).1
      else if hj3 : (j : ℕ) < N * (K + 1) + (K + nrfOf excess) then
        (betasᵀ * betas) ⟨(i : ℕ) - N * (K + 1), by omega⟩ ⟨(j : ℕ) - N * (K + 1), by omega⟩
      else if (i : ℕ) = (j : ℕ) then 1 else 0
    else
      if hj2 : (j : ℕ) < N * (K + 1) then
        npKron (eyeQ N) (zeroLam excess lam)ᵀ
          ⟨(i : ℕ) - (N * (K + 1) + (K + nrfOf excess)), by
            have := i.isLt
            simp only [tpDim] at this
            have hm : N * 1 = N := Nat.mul_one N
            omega⟩
          ⟨(j : ℕ), hj2⟩
      else if (i : ℕ) = (j : ℕ) then 1 else 0

/-- Moment matrix of `LinearFactorModel.fit` (lines 264-271):
`np.c_[f_rep * eps_rep, pricing_errors @ betas, pricing_errors - alphas.T]`. -/
def twoPassMoments {T N K : ℕ} (excess : Bool) (fc : Mat T (K + 1)) (eps : Mat T N)
    (betas : Mat N (K + nrfOf excess)) (pricingErrors : Mat T N) (alphas : Mat N 1) :
    Mat T (tpDim N K excess) :=
  hcat (hcat (hada (tileCols fc N) (epsRepCross K eps)) (pricingErrors * betas))
    (Matrix.of fun t i => pricingErrors t i - alphas i ⟨0, Nat.one_pos⟩)

/-- Reported betas (line 305): the full loadings for excess returns, else the
loadings with the leading all-ones column dropped. -/
def twoPassReportedBetas {N K : ℕ} (excess : Bool)
    (betas : Mat N (K + nrfOf excess)) : Mat N K :=
  match excess, betas with
  | true, betas => betas
  | false, betas => Matrix.of fun i j =>
      betas i ⟨(j : ℕ) + 1, by
        have := j.isLt; simp only [nrfOf, Bool.cond_false]; omega⟩

/-- Parameter-name list of `LinearFactorModel.fit` (lines 307-315). -/
def twoPassParamNames (excess : Bool) (pnames fnames : List String) : List String :=
  loadingNames pnames fnames ++
    (if excess then [] else ["lambda-risk_free"]) ++
    fnames.map fun fn => "lambda-" ++ fn

/-- Risk-premia names of `LinearFactorModel.fit` (lines 322-325). -/
def twoPassRpNames (excess : Bool) (fnames : List String) : List String :=
  if excess then fnames else "risk_free" :: fnames

/-- The VCV pivot index of `LinearFactorModel.fit` (lines 317-320):
`order = np.reshape(np.arange(s2), (nportfolio, nfactor+1))` (row-major array
`fun q r => q*(K+1)+r`) whose column 0 is replaced by `np.arange(s3, s3+N)`,
raveled row-major and concatenated with `s2:s3`. Entry `i < N*(K+1)` reads
row `i/(K+1)`, column `i%(K+1)` of the modified array; entry `i ≥ N*(K+1)`
selects `s2 + (i - N*(K+1)) = i`. -/
def twoPassOrder (N K : ℕ) (e : Bool) (i : ℕ) : ℕ :=
  if i < N * (K + 1) then
    if i % (K + 1) = 0 then N * (K + 1) + (K + nrfOf e) + i / (K + 1)
    else (i / (K + 1)) * (K + 1) + i % (K + 1)
  else N * (K + 1) + (i - N * (K + 1))

/-- `twoPassOrder` as a map into the moment index space. -/
def twoPassOrderF {N K : ℕ} (e : Bool) (i : Fin (N * (K + 1) + (K + nrfOf e))) :
    Fin (tpDim N K e) :=
  ⟨twoPassOrder N K e (i : ℕ), by
    have hi := i.isLt
    unfold twoPassOrder
    split_ifs with h1 h2
    · have hd : (i : ℕ) / (K + 1) < N :=
        Nat.div_lt_of_lt_mul (lt_of_lt_of_eq h1 (Nat.mul_comm N (K + 1)))
      show N * (K + 1) + (K + nrfOf e) + (i : ℕ) / (K + 1) < N * (K + 1) + (K + nrfOf e) + N
      omega
    · have hd : (i : ℕ) / (K + 1) < N :=
        Nat.div_lt_of_lt_mul (lt_of_lt_of_eq h1 (Nat.mul_comm N (K + 1)))
      have hm : (i : ℕ) % (K + 1) < K + 1 := Nat.mod_lt _ (Nat.succ_pos K)
      show (i : ℕ) / (K + 1) * (K + 1) + (i : ℕ) % (K + 1) <
        N * (K + 1) + (K + nrfOf e) + N
      have hmd : (i : ℕ) / (K + 1) * (K + 1) + (i : ℕ) % (K + 1) = (i : ℕ) :=
        Nat.div_add_mod' _ _
      omega
    · show N * (K + 1) + ((i : ℕ) - N * (K + 1)) < N * (K + 1) + (K + nrfOf e) + N
      omega⟩

/-- Result bundle of `LinearFactorModel.fit` (the `AttrDict` of line 326). -/
structure TwoPassResult (T N K : ℕ) (excess : Bool) where
  params : Mat N (K + 1)
  cov : Mat (N * (K + 1) + (K + nrfOf excess)) (N * (K + 1) + (K + nrfOf excess))
  betas : Mat N K
  rp : Mat (K + nrfOf excess) 1
  rpCov : Mat (K + nrfOf excess) (K + nrfOf excess)
  alphas : Mat N 1
  alphaVcv : Mat N N
  jstat : ℚ
  jstatDf : ℤ
  jstatNull : String
  rsquared : ℚ
  totalSS : ℚ
  residualSS : ℚ
  paramNames : List String
  rpNames : List String
  covType : String
  nobsOut : ℕ

/-- Embedding of `LinearFactorModel.fit` (lines 210-333). `lstsqO` is the
external `numpy.linalg.lstsq` least-squares service, passed as an oracle.
The two `numpy.linalg.inv` calls (lines 292 and 296) are the only failure
points. -/
def twoPassFit {T N K : ℕ}
    (lstsqO : (m n q : ℕ) → Mat m n → Mat m q → Mat n q)
    (excess : Bool) (p : Mat T N) (f : Mat T K) (pnames fnames : List String)
    (covType : String) :
    Except ModelError (TwoPassResult T N K excess) :=
  let fc := withConst f
  let b := lstsqO T (K + 1) N fc p
  let eps := p - fc * b
  let betas := twoPassBetas excess b
  let lam := lstsqO N (K + nrfOf excess) 1 betas (meanCols p)
  let expected := betas * lam
  let pricingErrors : Mat T N :=
    Matrix.of fun t i => p t i - expected i ⟨0, Nat.one_pos⟩
  let alphas := meanCols pricingErrors
  let moments := twoPassMoments excess fc eps betas pricingErrors alphas
  let S := mdiv (momentsᵀ * moments) T
  let G := twoPassG excess (mdiv (fcᵀ * fc) T) betas lam alphas
  match npInv G with
  | .error e => .error e
  | .ok Ginv =>
    let fullVcv := mdiv (Ginv * S * Ginvᵀ) T
    let alphaVcv := sliceBlock (N * (K + 1) + (K + nrfOf excess)) N le_rfl fullVcv
    match npInv alphaVcv with
    | .error e => .error e
    | .ok aInv =>
      let stat : ℚ := (alphasᵀ * aInv * alphas) ⟨0, Nat.one_pos⟩ ⟨0, Nat.one_pos⟩
      let totalSS := sumSq (demeanCols p)
      let residualSS := sumSq eps
      let rbetas := twoPassReportedBetas excess betas
      .ok
        { params := Matrix.of fun i j =>
            if hj0 : (j : ℕ) = 0 then alphas i ⟨0, Nat.one_pos⟩
            else rbetas i ⟨(j : ℕ) - 1, by have := j.isLt; omega⟩
          cov := Matrix.of fun i j => fullVcv (twoPassOrderF excess i) (twoPassOrderF excess j)
          betas := rbetas
          rp := lam
          rpCov := sliceBlock (N * (K + 1)) (K + nrfOf excess)
            (by simp only [tpDim]; omega) fullVcv
          alphas := alphas
          alphaVcv := alphaVcv
          jstat := stat
          jstatDf := (N : ℤ) - (K : ℤ)
          jstatNull := "All alphas are 0"
          rsquared := 1 - residualSS / totalSS
          totalSS := totalSS
          residualSS := residualSS
          paramNames := twoPassParamNames excess pnames fnames
          rpNames := twoPassRpNames excess fnames
          covType := covType
          nobsOut := T }

/-- Length of the GMM parameter vector `sv = np.r_[betas, lam, mu]`
(line 423): `n*k` loadings, `k + nrf` risk premia, `k` factor means. -/
abbrev gmmP (n k : ℕ) (e : Bool) : ℕ := n * k + (k + nrfOf e) + k

/-- Number of GMM moment conditions: `g = np.c_[eps * f, fe]` has
`n*(k+1)` residual-instrument columns plus `k` factor-mean columns
(`LinearFactorModelGMM._moments`, lines 509-513). -/
abbrev gmmMomentCols (n k : ℕ) : ℕ := n * (k + 1) + k

/-- Loadings slice of the GMM parameter vector:
`betas = np.reshape(parameters[:(n*k)], (n, k))` (lines 502, 505). -/
def gmmBetasOf {n k : ℕ} (e : Bool) (θ : Mat (gmmP n k e) 1) : Mat n k :=
  Matrix.of fun i j =>
    θ ⟨(i : ℕ) * k + (j : ℕ), by
        have hi := i.isLt
        have hj := j.isLt
        have h1 : (i : ℕ) * k + (j : ℕ) < ((i : ℕ) + 1) * k := by
          rw [Nat.add_mul, Nat.one_mul]; omega
        have h2 : ((i : ℕ) + 1) * k ≤ n * k := Nat.mul_le_mul_right k (by omega)
        show (i : ℕ) * k + (j : ℕ) < n * k + (k + nrfOf e) + k
        omega⟩ ⟨0, Nat.one_pos⟩

/-- Risk-premia slice `lam = parameters[s1:s2]` (line 503). -/
def gmmLamOf {n k : ℕ} (e : Bool) (θ : Mat (gmmP n k e) 1) : Mat (k + nrfOf e) 1 :=
  Matrix.of fun a _ =>
    θ ⟨n * k + (a : ℕ), by
        have := a.isLt
        show n * k + (a : ℕ) < n * k + (k + nrfOf e) + k
        omega⟩ ⟨0, Nat.one_pos⟩

/-- Factor-mean slice `mu = parameters[s2:]` (line 504; identically
`params[-k:]` in `_jacobian`, line 532). -/
def gmmMuOf {n k : ℕ} (e : Bool) (θ : Mat (gmmP n k e) 1) : Mat k 1 :=
  Matrix.of fun a _ =>
    θ ⟨n * k + (k + nrfOf e) + (a : ℕ), by
        have := a.isLt
        show n * k + (k + nrfOf e) + (a : ℕ) < n * k + (k + nrfOf e) + k
        omega⟩ ⟨0, Nat.one_pos⟩

/-- The augmented loading matrix `np.c_[np.ones((n, nrf)), betas]`
(line 506): `nrf` leading all-ones columns followed by the loadings.
The same row vector is the per-portfolio regressor block `b` of
`_jacobian` (lines 545-549). -/
def gmmAug {n k : ℕ} (e : Bool) (betas : Mat n k) : Mat n (k + nrfOf e) :=
  match e with
  | true => betas
  | false => Matrix.of fun i j =>
      if hj0 : (j : ℕ) = 0 then 1
      else betas i ⟨(j : ℕ) - 1, by
        have := j.isLt; simp only [nrfOf, Bool.cond_false] at this; omega⟩

/-- Embedding of `LinearFactorModelGMM._moments` (lines 494-513). -/
def gmmMoments {T n k : ℕ} (e : Bool) (p : Mat T n) (f : Mat T k)
    (θ : Mat (gmmP n k e) 1) : Mat T (gmmMomentCols n k) :=
  let betas := gmmBetasOf e θ
  let lam := gmmLamOf e θ
  let mu := gmmMuOf e θ
  let expected : Mat n 1 := gmmAug e betas * lam
  let fe : Mat T k := Matrix.of fun t j => f t j - mu j ⟨0, Nat.one_pos⟩
  let eps : Mat T n := Matrix.of fun t i =>
    p t i - expected i ⟨0, Nat.one_pos⟩ - (fe * betasᵀ) t i
  let fAug := withConst f
  hcat (hada (tileCols fAug n) (epsRepCross k eps)) fe

/-- Embedding of the GMM objective `LinearFactorModelGMM._j` (lines 515-520):
`nobs * gbar' W gbar`. -/
def gmmObjective {T n k : ℕ} (e : Bool) (p : Mat T n) (f : Mat T k)
    (θ : Mat (gmmP n k e) 1)
    (w : Mat (gmmMomentCols n k) (gmmMomentCols n k)) : ℚ :=
  let gbar := meanCols (gmmMoments e p f θ)
  (T : ℚ) * (gbarᵀ * w * gbar) ⟨0, Nat.one_pos⟩ ⟨0, Nat.one_pos⟩

/-- Embedding of `LinearFactorModelGMM._jacobian` (lines 522-556): the
`(n*k + n + k) × nparam` analytic derivative, with Kronecker beta block,
per-portfolio lambda and mu blocks, and trailing identity in the
factor-mean rows. -/
def gmmJacobian {T n k : ℕ} (e : Bool) (f : Mat T k) (θ : Mat (gmmP n k e) 1) :
    Mat (n * k + n + k) (gmmP n k e) :=
  let betas := gmmBetasOf e θ
  let lam := gmmLamOf e θ
  let mu := gmmMuOf e θ
  let lt := lamTilde e lam
  let fAug := withConst f
  let fe : Mat T k := Matrix.of fun t j => f t j - mu j ⟨0, Nat.one_pos⟩ + lt j ⟨0, Nat.one_pos⟩
  let fef := mdiv (fAugᵀ * fe) T
  Matrix.of fun r c =>
    if hr : (r : ℕ) < n * (k + 1) then
      if hc1 : (c : ℕ) < n * k then
        npKron (eyeQ n) fef ⟨(r : ℕ), hr⟩ ⟨(c : ℕ), hc1⟩
      else if hc2 : (c : ℕ) < n * k + (k + nrfOf e) then
        (∑ t, fAug t (idxModDiv (k + 1) n ⟨(r : ℕ), lt_of_lt_of_eq hr (Nat.mul_comm n (k + 1))⟩).1 *
          gmmAug e betas
            (idxModDiv (k + 1) n ⟨(r : ℕ), lt_of_lt_of_eq hr (Nat.mul_comm n (k + 1))⟩).2
            ⟨(c : ℕ) - n * k, by omega⟩) / (T : ℚ)
      else
        -((∑ t, fAug t (idxModDiv (k + 1) n ⟨(r : ℕ), lt_of_lt_of_eq hr (Nat.mul_comm n (k + 1))⟩).1 *
          betas
            (idxModDiv (k + 1) n ⟨(r : ℕ), lt_of_lt_of_eq hr (Nat.mul_comm n (k + 1))⟩).2
            ⟨(c : ℕ) - (n * k + (k + nrfOf e)), by
              have := c.isLt
              simp only [gmmP] at this
              show (c : ℕ) - (n * k + (k + nrfOf e)) < k
              omega⟩) / (T : ℚ))
    else
      if hc2 : (c : ℕ) < n * k + (k + nrfOf e) then 0
      else if (r : ℕ) - n * (k + 1) = (c : ℕ) - (n * k + (k + nrfOf e)) then 1 else 0

/-- One per-step body plus continuation of the outer re-weighting loop of
`LinearFactorModelGMM.fit` (lines 437-450), parameterized by the
weighting-matrix recomputation `wOf` (steps a-b) and the external minimizer
(step c). Returns the final parameters, the last objective value, the last
weighting matrix in scope, and the number of loop iterations executed; an
early stop happens exactly at the source's
`if np.abs(obj - last_obj) < 1e-6: break`. -/
def gmmStepLoop {P M : ℕ}
    (wOf : Mat P 1 → Except ModelError (Mat M M))
    (minimizeO : Mat P 1 → Mat M M → Mat P 1 × ℚ) :
    ℕ → Mat P 1 → ℚ → Mat M M → Except ModelError (Mat P 1 × ℚ × Mat M M × ℕ)
  | 0, params, lastObj, wCur => .ok (params, lastObj, wCur, 0)
  | steps + 1, params, lastObj, _w =>
    match wOf params with
    | .error e => .error e
    | .ok w2 =>
      let r := minimizeO params w2
      if |r.2 - lastObj| < 1 / 1000000 then .ok (r.1, r.2, w2, 1)
      else
        match gmmStepLoop wOf minimizeO steps r.1 r.2 w2 with
        | .error e => .error e
        | .ok (pf, o, wf, c) => .ok (pf, o, wf, c + 1)

/-- Parameter-name list of `LinearFactorModelGMM.fit` (lines 474-481):
beta names per portfolio, the optional risk-free premium name, the factor
premia names, then the factor-mean names. -/
def gmmParamNames (e : Bool) (pnames fnames : List String) : List String :=
  (pnames.flatMap fun pn => fnames.map fun fn => "beta-" ++ pn ++ "-" ++ fn) ++
    (if e then [] else ["lambda-risk_free"]) ++
    (fnames.map fun fn => "lambda-" ++ fn) ++
    (fnames.map fun fn => "mu-" ++ fn)

/-- Starting parameter vector of `LinearFactorModelGMM.fit` (lines 420-423):
`sv = np.r_[betas.ravel(), lam, mu]` built from the two-pass results and the
sample factor means. -/
def gmmStartingValues {T n k : ℕ} (e : Bool) (res : TwoPassResult T n k e)
    (f : Mat T k) : Mat (gmmP n k e) 1 :=
  Matrix.of fun a _ =>
    if ha1 : (a : ℕ) < n * k then
      res.betas (idxModDiv k n ⟨(a : ℕ), lt_of_lt_of_eq ha1 (Nat.mul_comm n k)⟩).2
        (idxModDiv k n ⟨(a : ℕ), lt_of_lt_of_eq ha1 (Nat.mul_comm n k)⟩).1
    else if ha2 : (a : ℕ) < n * k + (k + nrfOf e) then
      res.rp ⟨(a : ℕ) - n * k, by omega⟩ ⟨0, Nat.one_pos⟩
    else
      meanCols f ⟨(a : ℕ) - (n * k + (k + nrfOf e)), by
        have := a.isLt
        simp only [gmmP] at this
        show (a : ℕ) - (n * k + (k + nrfOf e)) < k
        omega⟩ ⟨0, Nat.one_pos⟩

/-- Strided alpha estimates of `LinearFactorModelGMM.fit` (line 460):
`alphas = g.mean(0)[0:(n*(k+1)):(k+1), None]`. -/
def gmmAlphasOf {T n k : ℕ} (g : Mat T (gmmMomentCols n k)) : Mat n 1 :=
  Matrix.of fun i _ =>
    meanCols g ⟨(i : ℕ) * (k + 1), by
      have h1 : (i : ℕ) * (k + 1) < n * (k + 1) :=
        (Nat.mul_lt_mul_right (Nat.succ_pos k)).mpr i.isLt
      show (i : ℕ) * (k + 1) < n * (k + 1) + k
      omega⟩ ⟨0, Nat.one_pos⟩

/-- Strided alpha covariance of `LinearFactorModelGMM.fit` (line 461):
`alpha_vcv = s[0:(n*(k+1)):(k+1), 0:(n*(k+1)):(k+1)] / nobs`. -/
def gmmAlphaVcvOf {n k : ℕ} (T : ℕ)
    (s : Mat (gmmMomentCols n k) (gmmMomentCols n k)) : Mat n n :=
  Matrix.of fun i j =>
    s ⟨(i : ℕ) * (k + 1), by
        have h1 : (i : ℕ) * (k + 1) < n * (k + 1) :=
          (Nat.mul_lt_mul_right (Nat.succ_pos k)).mpr i.isLt
        show (i : ℕ) * (k + 1) < n * (k + 1) + k
        omega⟩
      ⟨(j : ℕ) * (k + 1), by
        have h1 : (j : ℕ) * (k + 1) < n * (k + 1) :=
          (Nat.mul_lt_mul_right (Nat.succ_pos k)).mpr j.isLt
        show (j : ℕ) * (k + 1) < n * (k + 1) + k
        omega⟩ / (T : ℚ)

/-- Result bundle of `LinearFactorModelGMM.fit` (the `AttrDict` of line 485). -/
structure GMMResult (T n k : ℕ) (e : Bool) where
  params : Mat n (k + 1)
  cov : Mat (gmmP n k e) (gmmP n k e)
  betas : Mat n k
  rp : Mat (k + nrfOf e) 1
  rpCov : Mat (k + nrfOf e) (k + nrfOf e)
  alphas : Mat n 1
  alphaVcv : Mat n n
  jstat : ℚ
  jstatDf : ℤ
  jstatNull : String
  rsquared : ℚ
  totalSS : ℚ
  residualSS : ℚ
  paramNames : List String
  rpNames : List String
  covType : String
  nobsOut : ℕ

/-- Embedding of `LinearFactorModelGMM.fit` (lines 378-492). `lstsqO` is the
least-squares oracle handed to the inner two-pass starting-value fit;
`minimizeO` is the external `scipy.optimize.minimize` service, mapping a
starting parameter vector and the weighting matrix fixed in `args` to the
minimizer `res.x` and objective value `res.fun`. `steps` counts the outer
weighting iterations; the `disp`/callback printing side-channel and
`max_iter` live inside the minimizer and do not affect the returned values. -/
def gmmFit {T n k : ℕ} (e : Bool)
    (lstsqO : (m a q : ℕ) → Mat m a → Mat m q → Mat a q)
    (minimizeO : Mat (gmmP n k e) 1 → Mat (gmmMomentCols n k) (gmmMomentCols n k) →
      Mat (gmmP n k e) 1 × ℚ)
    (steps : ℕ) (p : Mat T n) (f : Mat T k) (pnames fnames : List String)
    (covType : String) :
    Except ModelError (GMMResult T n k e) :=
  match twoPassFit lstsqO e p f pnames fnames "robust" with
  | .error err => .error err
  | .ok res0 =>
    let sv := gmmStartingValues e res0 f
    let g0 := gmmMoments e p f sv
    match npInv (mdiv (g0ᵀ * g0) T) with
    | .error err => .error err
    | .ok w0 =>
      let r1 := minimizeO sv w0
      match gmmStepLoop
          (fun θ => npInv (mdiv ((gmmMoments e p f θ)ᵀ * gmmMoments e p f θ) T))
          minimizeO (steps - 1) r1.1 r1.2 w0 with
      | .error err => .error err
      | .ok (par, _, wFinal, _) =>
        let g := gmmMoments e p f par
        let s := mdiv (gᵀ * g) T
        let jac := gmmJacobian e f par
        let jacC : Mat (gmmMomentCols n k) (gmmP n k e) :=
          jac.submatrix (Fin.cast (by simp only [gmmMomentCols]; ring)) id
        match npInv s with
        | .error err => .error err
        | .ok sInv =>
          match npInv (jacCᵀ * sInv * jacC) with
          | .error err => .error err
          | .ok core =>
            let fullVcv := mdiv core T
            let betas2 := gmmBetasOf e par
            let alphas := gmmAlphasOf g
            let totalSS := sumSq (demeanCols p)
            let residualSS := sumSq (demeanCols (p - f * betas2ᵀ))
            .ok
              { params := Matrix.of fun i j =>
                  if hj0 : (j : ℕ) = 0 then alphas i ⟨0, Nat.one_pos⟩
                  else betas2 i ⟨(j : ℕ) - 1, by have := j.isLt; omega⟩
                cov := fullVcv
                betas := betas2
                rp := gmmLamOf e par
                rpCov := sliceBlock (n * k) (k + nrfOf e)
                  (by show n * k + (k + nrfOf e) ≤ n * k + (k + nrfOf e) + k; omega) fullVcv
                alphas := alphas
                alphaVcv := gmmAlphaVcvOf T s
                jstat := gmmObjective e p f par wFinal
                jstatDf := (n : ℤ)
                jstatNull := "All alphas are 0"
                rsquared := 1 - residualSS / totalSS
                totalSS := totalSS
                residualSS := residualSS
                paramNames := gmmParamNames e pnames fnames
                rpNames := ((gmmParamNames e pnames fnames).drop (n * k)).take (k + nrfOf e)
                covType := covType
                nobsOut := T }

/-- A `fit` call on a stored model: `tradedFit` applied to the state's
portfolio and factor slots, exactly as the Python method reads
`self.portfolios` / `self.factors`. -/
def tradedFitOnModel {T a b : ℕ} (pinvO : (x y : ℕ) → Mat x y → Mat y x)
    (d : FactorModelData T a b) (covType : String) (debiased : Bool)
    (cfg : CovConfig) : Except ModelError (TradedResult T a b) :=
  tradedFit pinvO d.portfolios d.factors d.portfolioNames d.factorNames
    covType debiased cfg

/-- A GMM `fit` call on a stored model: `gmmFit` applied to the state's
portfolio and factor slots. -/
def gmmFitOnModel {T a b : ℕ} (e : Bool)
    (lstsqO : (m x q : ℕ) → Mat m x → Mat m q → Mat x q)
    (minimizeO : Mat (gmmP a b e) 1 → Mat (gmmMomentCols a b) (gmmMomentCols a b) →
      Mat (gmmP a b e) 1 × ℚ)
    (steps : ℕ) (d : FactorModelData T a b) (covType : String) :
    Except ModelError (GMMResult T a b e) :=
  gmmFit e lstsqO minimizeO steps d.portfolios d.factors d.portfolioNames
    d.factorNames covType

/-- The four Moore-Penrose conditions over `ℚ` (transpose in place of the
conjugate transpose): the defining property of `numpy.linalg.pinv`'s output. -/
def IsMP {m n : ℕ} (A : Mat m n) (B : Mat n m) : Prop :=
  A * B * A = A ∧ B * A * B = B ∧ (A * B)ᵀ = A * B ∧ (B * A)ᵀ = B * A

/-- Least-squares oracle used by concrete instances: solves the normal
equations through the exact inverse of `AᵀA`; this is the least-squares
solution whenever `AᵀA` is invertible, which every statement relying on this
oracle verifies at its concrete input. -/
def neLstsq : (m a q : ℕ) → Mat m a → Mat m q → Mat a q :=
  fun _ _ _ A B => matInv (Aᵀ * A) * (Aᵀ * B)

/-- Pseudo-inverse oracle used by concrete instances: the exact inverse on
square matrices (correct whenever they are invertible), the transpose
otherwise; statements relying on it only constrain the values that
their hypotheses pin down. -/
def sqPinv : (a b : ℕ) → Mat a b → Mat b a :=
  fun a b A =>
    if h : a = b then
      (matInv (A.submatrix (Fin.cast h.symm) id)).submatrix id (Fin.cast h)
    else Aᵀ

/-- Concatenation of two permutations, acting blockwise on `Fin (A + B)`. -/
def appendPerm {A B : ℕ} (pL : Equiv.Perm (Fin A)) (pR : Equiv.Perm (Fin B)) :
    Equiv.Perm (Fin (A + B)) :=
  (finSumFinEquiv.symm.trans ((pL.sumCongr pR).trans finSumFinEquiv))

/-- The permutation of `Fin (N * L)` that permutes the `N` contiguous
blocks of length `L` by `σ`, fixing the position inside each block
(block-major index `i = q * L + r`). -/
def colBlockPerm {N : ℕ} (L : ℕ) (σ : Equiv.Perm (Fin N)) :
    Equiv.Perm (Fin (N * L)) :=
  (finProdFinEquiv.symm.trans ((σ.prodCongr (Equiv.refl (Fin L))).trans finProdFinEquiv))

/-- The column permutation of the traded stacked moment matrix induced by a
portfolio permutation: the `N` loading blocks of width `K+1` move by `σ`, the
trailing `K` factor columns stay. -/
def tradedMomPerm (N K : ℕ) (σ : Equiv.Perm (Fin N)) :
    Equiv.Perm (Fin (N * (K + 1) + K)) :=
  appendPerm (colBlockPerm (K + 1) σ) (Equiv.refl (Fin K))

/-- The column permutation of the two-pass moment matrix induced by a
portfolio permutation: the `N` residual blocks of width `K+1` move by `σ`,
the `K + nrf` normal-equation columns stay, the `N` pricing-error columns
move by `σ`. -/
def twoPassMomPerm (N K : ℕ) (e : Bool) (σ : Equiv.Perm (Fin N)) :
    Equiv.Perm (Fin (tpDim N K e)) :=
  appendPerm (appendPerm (colBlockPerm (K + 1) σ) (Equiv.refl (Fin (K + nrfOf e)))) σ

/-- Whether a computation succeeded. -/
def isOkB {E A : Type} : Except E A → Bool
  | .ok _ => true
  | .error _ => false

/-- Extract the payload of a successful computation, with a fallback. -/
def okOr {E A : Type} (d : A) : Except E A → A
  | .ok a => a
  | .error _ => d

/-- All-zero fallback bundle for the traded estimator. -/
def tradedJunk {T N K : ℕ} : TradedResult T N K :=
  ⟨0, 0, 0, 0, 0, 0, 0, 0, 0, "", 0, 0, 0, [], [], "", 0⟩

/-- All-zero fallback bundle for the two-pass estimator. -/
def twoPassJunk {T N K : ℕ} {e : Bool} : TwoPassResult T N K e :=
  ⟨0, 0, 0, 0, 0, 0, 0, 0, 0, "", 0, 0, 0, [], [], "", 0⟩

/-- All-zero fallback bundle for the GMM estimator. -/
def gmmJunk {T n k : ℕ} {e : Bool} : GMMResult T n k e :=
  ⟨0, 0, 0, 0, 0, 0, 0, 0, 0, "", 0, 0, 0, [], [], "", 0⟩

/-- The traded-model alpha covariance as computed inside `tradedFit`
(lines 122-134), exposed so statements can name it; it matches the fit's
internal value whenever the covariance selection succeeds, and is zero
otherwise. -/
def tradedAlphaVcvOf {T N K : ℕ} (pinvO : (a b : ℕ) → Mat a b → Mat b a)
    (p : Mat T N) (f : Mat T K) (covType : String) (debiased : Bool)
    (cfg : CovConfig) : Mat N N :=
  let fc := withConst f
  let fe := demeanCols f
  let b := pinvO T (K + 1) fc * p
  let eps := p - fc * b
  let xpxi := tradedXpxi N K (pinvO (K + 1) (K + 1) (mdiv (fcᵀ * fc) T))
  let xe := tradedXe fc eps fe
  match tradedCovPair covType cfg xe fe with
  | .error _ => 0
  | .ok (xeex, _) =>
    let d : ℚ := if debiased then 1 else 0
    let fullVcv := mdiv (xpxi * xeex * xpxi) ((T : ℚ) - d * ((K : ℚ) + 1))
    let vcv := sliceBlock 0 (N * (K + 1)) (by omega) fullVcv
    let vcvOrd : Mat (N * (K + 1)) (N * (K + 1)) :=
      Matrix.of fun i j => vcv (tradedOrderF i) (tradedOrderF j)
    sliceBlock 0 N
      (by have : N * 1 ≤ N * (K + 1) := Nat.mul_le_mul_left N (by omega); omega) vcvOrd

/-- The two-pass analytic Jacobian `G` as computed inside `twoPassFit`
(lines 274-291), exposed so statements can name it. -/
def twoPassGOf {T N K : ℕ} (lstsqO : (m a q : ℕ) → Mat m a → Mat m q → Mat a q)
    (excess : Bool) (p : Mat T N) (f : Mat T K) :
    Mat (tpDim N K excess) (tpDim N K excess) :=
  let fc := withConst f
  let b := lstsqO T (K + 1) N fc p
  let betas := twoPassBetas excess b
  let lam := lstsqO N (K + nrfOf excess) 1 betas (meanCols p)
  let expected := betas * lam
  let pricingErrors : Mat T N :=
    Matrix.of fun t i => p t i - expected i ⟨0, Nat.one_pos⟩
  let alphas := meanCols pricingErrors
  twoPassG excess (mdiv (fcᵀ * fc) T) betas lam alphas

/-- Concrete portfolio returns used by witnesses: 4 periods, one portfolio. -/
def wP : Mat 4 1 := Matrix.of fun i _ =>
  if (i : ℕ) = 0 then 1 else if (i : ℕ) = 1 then 3 else if (i : ℕ) = 2 then 4 else 2

/-- Concrete factor returns used by witnesses: 4 periods, one factor. -/
def wF : Mat 4 1 := Matrix.of fun i _ =>
  if (i : ℕ) = 0 then 1 else if (i : ℕ) = 1 then 2 else if (i : ℕ) = 2 then 4 else 3

/-- Minimizer oracle used by concrete GMM instances: returns its starting
point with objective 0 (any fixed behaviour is admissible for the external
minimizer). -/
def wMin {n k : ℕ} {e : Bool} :
    Mat (gmmP n k e) 1 → Mat (gmmMomentCols n k) (gmmMomentCols n k) →
      Mat (gmmP n k e) 1 × ℚ :=
  fun th _ => (th, 0)

/-- Concrete traded fit used by witnesses. -/
def wResTraded : Except ModelError (TradedResult 4 1 1) :=
  tradedFit sqPinv wP wF ["p1"] ["f1"] "robust" true ⟨none, none⟩

/-- Concrete two-pass fit used by witnesses. -/
def wRes2p : Except ModelError (TwoPassResult 4 1 1 true) :=
  twoPassFit neLstsq true wP wF ["p1"] ["f1"] "robust"

/-- Concrete GMM fit used by witnesses. -/
def wResGmm : Except ModelError (GMMResult 4 1 1 true) :=
  gmmFit true neLstsq wMin 2 wP wF ["p1"] ["f1"] "robust"

/-- Payload of `wResTraded`. -/
def wResTradedOk : TradedResult 4 1 1 := okOr tradedJunk wResTraded

/-- Payload of `wRes2p`. -/
def wRes2pOk : TwoPassResult 4 1 1 true := okOr twoPassJunk wRes2p

/-- Payload of `wResGmm`. -/
def wResGmmOk : GMMResult 4 1 1 true := okOr gmmJunk wResGmm

/-- Degenerate concrete input with a constant factor column: the first-stage
Gram matrix `fc'fc` is singular, so the two-pass Jacobian `G` is singular. -/
def singP : Mat 2 1 := Matrix.of fun _ _ => 2

/-- Constant factor column for the singular-input instance. -/
def singF : Mat 2 1 := Matrix.of fun _ _ => 1

/-- Two-period concrete input on which the two-pass fit succeeds but the GMM
moment matrix has more columns than observations, forcing a singular initial
weighting matrix. -/
def c7P : Mat 2 1 := Matrix.of fun i _ => if (i : ℕ) = 0 then 1 else 2

/-- Factor column for the short-sample instance. -/
def c7F : Mat 2 1 := Matrix.of fun i _ => if (i : ℕ) = 0 then 1 else 2

/-- Concrete short-sample two-pass fit. -/
def c7Res : Except ModelError (TwoPassResult 2 1 1 true) :=
  twoPassFit neLstsq true c7P c7F ["p1"] ["f1"] "robust"

/-- Payload of `c7Res`. -/
def c7ResOk : TwoPassResult 2 1 1 true := okOr twoPassJunk c7Res

/-- Concrete two-portfolio data for the permutation-invariance witness. -/
def w9P : Mat 3 2 := Matrix.of fun i j =>
  if (j : ℕ) = 0 then (if (i : ℕ) = 0 then 1 else if (i : ℕ) = 1 then 3 else 2)
  else (if (i : ℕ) = 0 then 2 else if (i : ℕ) = 1 then 1 else 5)

/-- Factor column for the permutation-invariance witness. -/
def w9F : Mat 3 1 := Matrix.of fun i _ =>
  if (i : ℕ) = 0 then 1 else if (i : ℕ) = 1 then 2 else 4

/-- The transposition of the two portfolios. -/
def swap2 : Equiv.Perm (Fin 2) := Equiv.swap 0 1

/-- Constant weighting-oracle used by the step-loop witness. -/
def c6WOf : Mat 1 1 → Except ModelError (Mat 1 1) := fun _ => .ok 0

/-- Constant minimizer used by the step-loop witness. -/
def c6Min : Mat 1 1 → Mat 1 1 → Mat 1 1 × ℚ := fun q _ => (q, 0)

/-- `detQ` agrees with Mathlib's determinant. -/
theorem detQ_eq_det : ∀ {n : ℕ} (A : Mat n n), detQ A = A.det
  | 0, A => by simp [detQ, Matrix.det_fin_zero]
  | n + 1, A => by
    rw [Matrix.det_succ_row_zero]
    simp only [detQ]
    exact Finset.sum_congr rfl fun j _ => by rw [detQ_eq_det]

/-- `adjQ` agrees with Mathlib's adjugate. -/
theorem adjQ_eq_adjugate {n : ℕ} (A : Mat n n) : adjQ A = A.adjugate := by
  ext i j
  rw [Matrix.adjugate_apply]
  simp only [adjQ, Matrix.of_apply, detQ_eq_det]
  congr 1
  ext a b
  by_cases hab : a = j
  · subst hab
    simp [Matrix.updateRow_apply, Pi.single_apply]
  · simp [Matrix.updateRow_apply, hab]

/-- `matInv` agrees with Mathlib's nonsingular inverse. -/
theorem matInv_eq_inv {n : ℕ} (A : Mat n n) : matInv A = A⁻¹ := by
  rw [Matrix.inv_def, Ring.inverse_eq_inv]
  show (detQ A)⁻¹ • adjQ A = _
  rw [detQ_eq_det, adjQ_eq_adjugate]

/-- Success case of the embedded `numpy.linalg.inv`. -/
theorem npInv_ok {n : ℕ} (A : Mat n n) (h : A.det ≠ 0) : npInv A = .ok A⁻¹ := by
  unfold npInv
  rw [detQ_eq_det, if_neg h, matInv_eq_inv]

/-- Failure case of the embedded `numpy.linalg.inv`. -/
theorem npInv_err {n : ℕ} (A : Mat n n) (h : A.det = 0) :
    npInv A = .error .linAlgError := by
  unfold npInv
  rw [detQ_eq_det, if_pos h]

/-- The embedded `numpy.linalg.inv` only fails on singular input, and then
always with `LinAlgError`. -/
theorem npInv_error_iff {n : ℕ} (A : Mat n n) (e : ModelError) :
    npInv A = .error e ↔ A.det = 0 ∧ e = .linAlgError := by
  unfold npInv
  rw [detQ_eq_det]
  by_cases h : A.det = 0 <;> simp [h, eq_comm]

/-- C1: the GMM constructor `LinearFactorModelGMM.__init__(self, factors,
portfolios)` passes its arguments positionally to the parent constructor
`TradedFactorModel.__init__(self, portfolios, factors)`, so the first
positional argument (bound to the parameter named `factors`) is stored as the
portfolio data and the second (named `portfolios`) as the factor data — the
reverse of the role order of the `TradedFactorModel` and `LinearFactorModel`
constructors.  Consequently a GMM model whose keyword arguments bind `P` to
`portfolios` and `F` to `factors` runs `fit` with `F` in the portfolio role
and `P` in the factor role. -/
theorem claim_C1 {T a b : ℕ} (F : Mat T a) (P : Mat T b)
    (fn pn : List String) :
    (LinearFactorModelGMM.init F P fn pn).portfolios = F ∧
    (LinearFactorModelGMM.init F P fn pn).factors = P ∧
    (LinearFactorModelGMM.init F P fn pn).portfolioNames = fn ∧
    (LinearFactorModelGMM.init F P fn pn).factorNames = pn ∧
    (∀ (Q : Mat T a) (G : Mat T b),
      (TradedFactorModel.init Q G pn fn).portfolios = Q ∧
      (TradedFactorModel.init Q G pn fn).factors = G ∧
      (LinearFactorModel.init Q G pn fn).portfolios = Q ∧
      (LinearFactorModel.init Q G pn fn).factors = G) ∧
    (∀ (e : Bool) lstsqO minimizeO steps covType,
      gmmFitOnModel e lstsqO minimizeO steps (LinearFactorModelGMM.init F P fn pn) covType =
        gmmFit e lstsqO minimizeO steps F P fn pn covType) :=
  ⟨rfl, rfl, rfl, rfl, fun _ _ => ⟨rfl, rfl, rfl, rfl⟩, fun _ _ _ _ _ => rfl⟩

/-- C4 counterexample: at `N = K = 1` the per-period GMM moment matrix has
`N*(K+1) + K = 3` columns, not the `K*(K+1) + N*(K+1) + K = 5` columns the
claim states; with excess returns its column count also differs from the
parameter count plus `N` (`3 + 1 = 4`). -/
theorem claim_C4_counterexample :
    gmmMomentCols 1 1 = 1 * (1 + 1) + 1 ∧
    gmmMomentCols 1 1 ≠ 1 * (1 + 1) + 1 * (1 + 1) + 1 ∧
    gmmMomentCols 1 1 ≠ gmmP 1 1 true + 1 := by decide

/-- C4 (amended): for every parameter vector the per-period moment matrix
built by `_moments` has `N*(K+1) + K` columns — the column index space of
`gmmMoments` — and this count plus `K + nrf` equals the parameter count plus
`N`: the number of over-identifying restrictions is `N - K - nrf`, not `N`. -/
theorem claim_C4 {T n k : ℕ} (e : Bool) (p : Mat T n) (f : Mat T k)
    (θ : Mat (gmmP n k e) 1) :
    (∃ M : Mat T (n * (k + 1) + k), M = gmmMoments e p f θ) ∧
    gmmMomentCols n k + (k + nrfOf e) = gmmP n k e + n := by
  refine ⟨⟨gmmMoments e p f θ, rfl⟩, ?_⟩
  show n * (k + 1) + k + (k + nrfOf e) = n * k + (k + nrfOf e) + k + n
  ring

/-- C3 (amended): the covariance-kind selection of `TradedFactorModel.fit`
accepts three names — `robust`, `heteroskedastic` and `kernel` — and raises
`ValueError` (not `ConfigurationError`) exactly on every other name; for the
accepted names the fit completes (for `kernel`, provided the kernel name
itself is recognized). -/
theorem claim_C3 {T N K : ℕ} (pinvO : (a b : ℕ) → Mat a b → Mat b a)
    (p : Mat T N) (f : Mat T K) (pnames fnames : List String)
    (covType : String) (debiased : Bool) (cfg : CovConfig) :
    (covType = "robust" ∨ covType = "heteroskedastic" →
      isOkB (tradedFit pinvO p f pnames fnames covType debiased cfg) = true) ∧
    (covType = "kernel" → (cfg.kernel).getD "bartlett" ∈ knownKernels →
      isOkB (tradedFit pinvO p f pnames fnames covType debiased cfg) = true) ∧
    (¬(covType = "robust" ∨ covType = "heteroskedastic" ∨ covType = "kernel") →
      tradedFit pinvO p f pnames fnames covType debiased cfg =
        .error (.valueError ("Unknown cov_type: " ++ covType))) := by
  refine ⟨?_, ?_, ?_⟩
  · rintro (rfl | rfl) <;> exact rfl
  · rintro rfl hk
    simp only [tradedFit, tradedCovPair, isOkB]
    rw [if_pos hk]
    exact rfl
  · intro h
    push_neg at h
    simp only [tradedFit, tradedCovPair]
    rw [if_neg (show ¬(covType = "robust" ∨ covType = "heteroskedastic") from by
          tauto),
      if_neg h.2.2]

/-- C3 counterexample: the name `heteroskedastic`, outside the claim's
two-element set {`robust`, `kernel`}, is accepted by the selection — the fit
returns a result instead of failing — so the "if and only if" of the claim is
false; moreover the error the code raises on a bad name is a `ValueError`,
not a `ConfigurationError`. -/
theorem claim_C3_counterexample :
    "heteroskedastic" ≠ "robust" ∧ "heteroskedastic" ≠ "kernel" ∧
    isOkB (tradedFit sqPinv wP wF ["p1"] ["f1"] "heteroskedastic" true
      ⟨none, none⟩) = true ∧
    tradedFit sqPinv wP wF ["p1"] ["f1"] "unknown" true ⟨none, none⟩ =
      .error (.valueError "Unknown cov_type: unknown") := by
  refine ⟨by decide, by decide, rfl, rfl⟩

/-- C3 witness: the amended covariance-selection behaviour at a concrete
input — the `robust` arm succeeds and an unknown name raises `ValueError`. -/
theorem claim_C3_witness :
    isOkB (tradedFit sqPinv wP wF ["p1"] ["f1"] "robust" true ⟨none, none⟩) = true ∧
    tradedFit sqPinv wP wF ["p1"] ["f1"] "bogus" true ⟨none, none⟩ =
      .error (.valueError ("Unknown cov_type: " ++ "bogus")) :=
  ⟨(claim_C3 sqPinv wP wF ["p1"] ["f1"] "robust" true ⟨none, none⟩).1 (Or.inl rfl),
   (claim_C3 sqPinv wP wF ["p1"] ["f1"] "bogus" true ⟨none, none⟩).2.2 (by decide)⟩

/-- C2: every successful fit reports the J-statistic with the degrees of
freedom the specification states — `N` for the time-series (traded)
estimator, `N - K` for the two-pass estimator, and `N` for the GMM
estimator (`N` and `K` counted from the stored portfolio and factor data). -/
theorem claim_C2 {T N K : ℕ} (pinvO : (a b : ℕ) → Mat a b → Mat b a)
    (lstsqO : (m a q : ℕ) → Mat m a → Mat m q → Mat a q) (e : Bool)
    (minimizeO : Mat (gmmP N K e) 1 → Mat (gmmMomentCols N K) (gmmMomentCols N K) →
      Mat (gmmP N K e) 1 × ℚ)
    (steps : ℕ) (p : Mat T N) (f : Mat T K) (pnames fnames : List String)
    (ct1 ct2 ct3 : String) (debiased : Bool) (cfg : CovConfig) :
    (∀ r, tradedFit pinvO p f pnames fnames ct1 debiased cfg = .ok r →
      r.jstatDf = (N : ℤ)) ∧
    (∀ r, twoPassFit lstsqO e p f pnames fnames ct2 = .ok r →
      r.jstatDf = (N : ℤ) - (K : ℤ)) ∧
    (∀ r, gmmFit e lstsqO minimizeO steps p f pnames fnames ct3 = .ok r →
      r.jstatDf = (N : ℤ)) := by
  refine ⟨?_, ?_, ?_⟩
  · intro r hr
    simp only [tradedFit] at hr
    repeat' split at hr
    all_goals
      first
        | exact Except.noConfusion hr
        | (injection hr with h; subst h; rfl)
  · intro r hr
    simp only [twoPassFit] at hr
    repeat' split at hr
    all_goals
      first
        | exact Except.noConfusion hr
        | (injection hr with h; subst h; rfl)
  · intro r hr
    simp only [gmmFit] at hr
    repeat' split at hr
    all_goals
      first
        | exact Except.noConfusion hr
        | (injection hr with h; subst h; rfl)

set_option maxRecDepth 100000 in
/-- C2 witness: the three degrees of freedom at a concrete successful input
with one portfolio and one factor over four periods. -/
theorem claim_C2_witness :
    wResTradedOk.jstatDf = 1 ∧ wRes2pOk.jstatDf = 0 ∧ wResGmmOk.jstatDf = 1 :=
  ⟨(claim_C2 sqPinv neLstsq true wMin 2 wP wF ["p1"] ["f1"] "robust" "robust"
      "robust" true ⟨none, none⟩).1 wResTradedOk rfl,
   (claim_C2 sqPinv neLstsq true wMin 2 wP wF ["p1"] ["f1"] "robust" "robust"
      "robust" true ⟨none, none⟩).2.1 wRes2pOk (by rfl),
   (claim_C2 sqPinv neLstsq true wMin 2 wP wF ["p1"] ["f1"] "robust" "robust"
      "robust" true ⟨none, none⟩).2.2 wResGmmOk (by rfl)⟩

/-- Head character of a string concatenation with a nonempty prefix. -/
theorem strHeadAppend (s t : String) (c : Char) (hs : s.data.head? = some c) :
    (s ++ t).data.head? = some c := by
  rw [String.data_append]
  cases h : s.data with
  | nil => rw [h] at hs; cases hs
  | cons a tl =>
    rw [h] at hs
    simp only [List.head?] at hs
    simpa using hs

/-- Strings with distinct head characters differ. -/
theorem strNeOfHead {s t : String} {c d : Char} (hs : s.data.head? = some c)
    (ht : t.data.head? = some d) (hcd : c ≠ d) : s ≠ t := by
  intro h
  subst h
  rw [hs] at ht
  exact hcd (Option.some.inj ht)

/-- Left cancellation for string concatenation. -/
theorem strAppendCancel {s a b : String} (h : s ++ a = s ++ b) : a = b := by
  apply String.ext
  have hd := congrArg String.data h
  rw [String.data_append, String.data_append] at hd
  exact List.append_cancel_left hd

/-- Characterization of membership in the per-portfolio loading names. -/
theorem mem_loadingNames {x : String} {pnames fnames : List String}
    (h : x ∈ loadingNames pnames fnames) :
    (∃ pn ∈ pnames, x = "alpha-" ++ pn) ∨
      ∃ pn ∈ pnames, ∃ fn ∈ fnames, x = "beta-" ++ pn ++ "-" ++ fn := by
  unfold loadingNames at h
  rcases List.mem_flatMap.mp h with ⟨pn, hpn, hx⟩
  rcases List.mem_cons.mp hx with hx | hx
  · exact Or.inl ⟨pn, hpn, hx⟩
  · rcases List.mem_map.mp hx with ⟨fn, hfn, hx⟩
    exact Or.inr ⟨pn, hpn, fn, hfn, hx.symm⟩

/-- No loading name is a `lambda-` name. -/
theorem loadingNames_no_lambda {x : String} {pnames fnames : List String}
    (h : x ∈ loadingNames pnames fnames) (y : String) : x ≠ "lambda-" ++ y := by
  have hy : ("lambda-" ++ y).data.head? = some 'l' :=
    strHeadAppend "lambda-" y 'l' rfl
  rcases mem_loadingNames h with ⟨pn, _, rfl⟩ | ⟨pn, _, fn, _, rfl⟩
  · exact strNeOfHead (strHeadAppend "alpha-" pn 'a' rfl) hy (by decide)
  · have hb : ("beta-" ++ pn ++ "-" ++ fn).data.head? = some 'b' := by
      have h1 : ("beta-" ++ pn).data.head? = some 'b' :=
        strHeadAppend "beta-" pn 'b' rfl
      have h2 : ("beta-" ++ pn ++ "-").data.head? = some 'b' :=
        strHeadAppend ("beta-" ++ pn) "-" 'b' h1
      exact strHeadAppend ("beta-" ++ pn ++ "-") fn 'b' h2
    exact strNeOfHead hb hy (by decide)

/-- C10: with excess returns, no risk-free-related name appears among the
two-pass parameter or risk-premia names (and the premia count is the factor
count); without excess returns, the extra `lambda-risk_free` name and
`risk_free` premium appear in the stated positions, the premia count grows by
one, the full first-stage loadings carry a leading all-ones column, and the
reported betas are exactly those loadings with that column dropped. -/
theorem claim_C10 {N K : ℕ} (pnames fnames : List String) (b : Mat (K + 1) N)
    (hrf : "risk_free" ∉ fnames) :
    ("lambda-risk_free" ∉ twoPassParamNames true pnames fnames) ∧
    ("risk_free" ∉ twoPassRpNames true fnames) ∧
    (twoPassRpNames true fnames).length = fnames.length ∧
    twoPassParamNames false pnames fnames =
      loadingNames pnames fnames ++
        "lambda-risk_free" :: fnames.map (fun fn => "lambda-" ++ fn) ∧
    twoPassRpNames false fnames = "risk_free" :: fnames ∧
    (twoPassRpNames false fnames).length = fnames.length + 1 ∧
    (∀ i : Fin N, twoPassBetas false b i ⟨0, Nat.succ_pos K⟩ = 1) ∧
    (∀ (i : Fin N) (j : Fin K),
      twoPassReportedBetas false (twoPassBetas false b) i j =
        twoPassBetas false b i ⟨(j : ℕ) + 1, by
          have := j.isLt; simp only [nrfOf, Bool.cond_false]; omega⟩) := by
  refine ⟨?_, hrf, rfl, ?_, rfl, by simp [twoPassRpNames], ?_, ?_⟩
  · intro hmem
    unfold twoPassParamNames at hmem
    rcases List.mem_append.mp hmem with hmem | hmem
    · rcases List.mem_append.mp hmem with hmem | hmem
      · exact loadingNames_no_lambda hmem "risk_free" rfl
      · simp at hmem
    · rcases List.mem_map.mp hmem with ⟨fn, hfn, hx⟩
      have : fn = "risk_free" := strAppendCancel hx
      exact hrf (this ▸ hfn)
  · unfold twoPassParamNames
    simp
  · intro i
    simp [twoPassBetas]
  · intro i j
    simp [twoPassReportedBetas]

/-- C10 witness: the risk-free handling at a concrete pair of name lists. -/
theorem claim_C10_witness :
    ("lambda-risk_free" ∉ twoPassParamNames true ["p1"] ["f1"]) ∧
    twoPassParamNames false ["p1"] ["f1"] =
      loadingNames ["p1"] ["f1"] ++
        "lambda-risk_free" :: (["f1"].map fun fn => "lambda-" ++ fn) ∧
    twoPassRpNames false ["f1"] = "risk_free" :: ["f1"] := by
  have h := claim_C10 (N := 1) (K := 1) ["p1"] ["f1"] 0 (by decide)
  exact ⟨h.1, h.2.2.2.1, h.2.2.2.2.1⟩

/-- Length of the per-portfolio loading-name list. -/
theorem loadingNames_length (pnames fnames : List String) :
    (loadingNames pnames fnames).length = pnames.length * (fnames.length + 1) := by
  induction pnames with
  | nil => simp [loadingNames]
  | cons pn ps ih =>
    simp only [loadingNames, List.flatMap_cons] at ih ⊢
    simp [ih]
    ring

/-- The loading-name list has the `alpha-` name of portfolio `i` at position
`i * (K + 1)`. -/
theorem loadingNames_get_alpha {K : ℕ} (fnames : List String)
    (hf : fnames.length = K) :
    ∀ (pnames : List String) (i : ℕ) (hi : i < pnames.length),
      (loadingNames pnames fnames)[i * (K + 1)]? =
        some ("alpha-" ++ pnames.get ⟨i, hi⟩) := by
  intro pnames
  induction pnames with
  | nil => intro i hi; cases hi
  | cons pn ps ih =>
    intro i hi
    cases i with
    | zero => simp [loadingNames, List.flatMap_cons]
    | succ i =>
      have hblock :
          (("alpha-" ++ pn) :: fnames.map fun fn => "beta-" ++ pn ++ "-" ++ fn).length
            = K + 1 := by simp [hf]
      simp only [loadingNames, List.flatMap_cons] at ih ⊢
      rw [show ((("alpha-" ++ pn) :: fnames.map fun fn => "beta-" ++ pn ++ "-" ++ fn) ++
          ps.flatMap fun pn =>
            ("alpha-" ++ pn) :: fnames.map fun fn => "beta-" ++ pn ++ "-" ++ fn) =
          (("alpha-" ++ pn) :: fnames.map fun fn => "beta-" ++ pn ++ "-" ++ fn) ++
          ps.flatMap fun pn =>
            ("alpha-" ++ pn) :: fnames.map fun fn => "beta-" ++ pn ++ "-" ++ fn from rfl,
        List.getElem?_append_right (by rw [hblock]; nlinarith)]
      rw [hblock]
      have hidx : (i + 1) * (K + 1) - (K + 1) = i * (K + 1) := by ring_nf; omega
      rw [hidx, ih i (by simpa using hi)]
      simp

/-- The traded reordering sends the alpha slot of portfolio `i` to position
`i * (K + 1)` of the loading block. -/
theorem tradedOrderF_alpha {N K : ℕ} (i : Fin N)
    (h : (i : ℕ) < N * (K + 1)) :
    (tradedOrderF (K := K) ⟨(i : ℕ), h⟩ : ℕ) = (i : ℕ) * (K + 1) := by
  show tradedOrder N K (i : ℕ) = (i : ℕ) * (K + 1)
  unfold tradedOrder
  simp only
  rw [Nat.mod_eq_of_lt i.isLt, Nat.div_eq_of_lt i.isLt]
  omega

/-- The two-pass pivot sends position `i * (K + 1)` (the alpha slot of
portfolio `i` in the reported layout) to source row `s3 + i`, the `i`-th row
of the trailing pricing-error block. -/
theorem twoPassOrderF_alpha {N K : ℕ} (e : Bool) (i : Fin N)
    (h : (i : ℕ) * (K + 1) < N * (K + 1) + (K + nrfOf e)) :
    (twoPassOrderF e ⟨(i : ℕ) * (K + 1), h⟩ : ℕ) =
      N * (K + 1) + (K + nrfOf e) + (i : ℕ) := by
  show twoPassOrder N K e ((i : ℕ) * (K + 1)) = _
  unfold twoPassOrder
  rw [if_pos ((Nat.mul_lt_mul_right (Nat.succ_pos K)).mpr i.isLt),
    if_pos (Nat.mul_mod_left _ _), Nat.mul_div_cancel _ (Nat.succ_pos K)]

/-- No parameter name produced by the GMM estimator is an `alpha-` name. -/
theorem gmmParamNames_no_alpha {e : Bool} {pnames fnames : List String}
    {s : String} (h : s ∈ gmmParamNames e pnames fnames) (y : String) :
    s ≠ "alpha-" ++ y := by
  have ha : ("alpha-" ++ y).data.head? = some 'a' := strHeadAppend "alpha-" y 'a' rfl
  unfold gmmParamNames at h
  rcases List.mem_append.mp h with h | h
  · rcases List.mem_append.mp h with h | h
    · rcases List.mem_append.mp h with h | h
      · rcases List.mem_flatMap.mp h with ⟨pn, _, h⟩
        rcases List.mem_map.mp h with ⟨fn, _, rfl⟩
        have hb : ("beta-" ++ pn ++ "-" ++ fn).data.head? = some 'b' :=
          strHeadAppend _ fn 'b' (strHeadAppend _ "-" 'b' (strHeadAppend "beta-" pn 'b' rfl))
        exact strNeOfHead hb ha (by decide)
      · rcases e with _ | _
        · simp at h
          subst h
          exact strNeOfHead (show ("lambda-risk_free" : String).data.head? = some 'l' from rfl)
            ha (by decide)
        · simp at h
    · rcases List.mem_map.mp h with ⟨fn, _, rfl⟩
      exact strNeOfHead (strHeadAppend "lambda-" fn 'l' rfl) ha (by decide)
  · rcases List.mem_map.mp h with ⟨fn, _, rfl⟩
    exact strNeOfHead (strHeadAppend "mu-" fn 'm' rfl) ha (by decide)

/-- C5 (amended): for the traded and two-pass estimators the returned full
covariance is indexed congruently with the returned parameter layout — the
alpha of portfolio `i` sits at position `i*(K+1)` of the name list, and the
returned alpha covariance is exactly the sub-block of the returned covariance
at those positions.  For the GMM estimator the returned covariance is indexed
by the `(betas, risk premia, factor means)` parameter vector, whose name list
contains no `alpha-` entry at all, and the returned alpha covariance is
instead the `(K+1)`-strided slice of the moment second-moment matrix divided
by `nobs`, evaluated at the final parameter vector (which also yields the
returned betas and risk premia). -/
theorem claim_C5 {T N K : ℕ} (pinvO : (a b : ℕ) → Mat a b → Mat b a)
    (lstsqO : (m a q : ℕ) → Mat m a → Mat m q → Mat a q) (e : Bool)
    (minimizeO : Mat (gmmP N K e) 1 → Mat (gmmMomentCols N K) (gmmMomentCols N K) →
      Mat (gmmP N K e) 1 × ℚ)
    (steps : ℕ) (p : Mat T N) (f : Mat T K) (pnames fnames : List String)
    (ct1 ct2 ct3 : String) (debiased : Bool) (cfg : CovConfig)
    (hp : pnames.length = N) (hf : fnames.length = K) :
    (∀ r, tradedFit pinvO p f pnames fnames ct1 debiased cfg = .ok r →
      (∀ i j : Fin N,
        r.alphaVcv i j =
          r.cov ⟨(i : ℕ) * (K + 1), by
              have := (Nat.mul_lt_mul_right (show 0 < K + 1 by omega)).mpr i.isLt; omega⟩
            ⟨(j : ℕ) * (K + 1), by
              have := (Nat.mul_lt_mul_right (show 0 < K + 1 by omega)).mpr j.isLt; omega⟩) ∧
      (∀ i : Fin N, r.paramNames[(i : ℕ) * (K + 1)]? =
        some ("alpha-" ++ pnames.get ⟨(i : ℕ), hp ▸ i.isLt⟩))) ∧
    (∀ r, twoPassFit lstsqO e p f pnames fnames ct2 = .ok r →
      (∀ i j : Fin N,
        r.alphaVcv i j =
          r.cov ⟨(i : ℕ) * (K + 1), by
              have := (Nat.mul_lt_mul_right (show 0 < K + 1 by omega)).mpr i.isLt; omega⟩
            ⟨(j : ℕ) * (K + 1), by
              have := (Nat.mul_lt_mul_right (show 0 < K + 1 by omega)).mpr j.isLt; omega⟩) ∧
      (∀ i : Fin N, r.paramNames[(i : ℕ) * (K + 1)]? =
        some ("alpha-" ++ pnames.get ⟨(i : ℕ), hp ▸ i.isLt⟩))) ∧
    (∀ r, gmmFit e lstsqO minimizeO steps p f pnames fnames ct3 = .ok r →
      (∀ s ∈ r.paramNames, ∀ y, s ≠ "alpha-" ++ y) ∧
      (∃ θ, r.alphaVcv = gmmAlphaVcvOf T
          (mdiv ((gmmMoments e p f θ)ᵀ * gmmMoments e p f θ) (T : ℚ)) ∧
        r.betas = gmmBetasOf e θ ∧ r.rp = gmmLamOf e θ)) := by
  refine ⟨?_, ?_, ?_⟩
  · intro r hr
    simp only [tradedFit] at hr
    repeat' split at hr
    all_goals try exact Except.noConfusion hr
    all_goals injection hr with h
    all_goals subst h
    all_goals constructor
    all_goals try
      (intro i j
       show sliceBlock 0 N _ _ i j = _
       simp only [sliceBlock, finShift, Matrix.of_apply]
       congr 1 <;> apply Fin.ext <;>
         simp [tradedOrderF_alpha, Nat.mod_eq_of_lt i.isLt, Nat.div_eq_of_lt i.isLt,
           Nat.mod_eq_of_lt j.isLt, Nat.div_eq_of_lt j.isLt, tradedOrderF, tradedOrder])
    all_goals
      (intro i
       show (tradedParamNames pnames fnames)[(i : ℕ) * (K + 1)]? = _
       unfold tradedParamNames
       rw [List.getElem?_append_left (by
         rw [loadingNames_length, hp, hf]
         exact (Nat.mul_lt_mul_right (show 0 < K + 1 by omega)).mpr i.isLt)]
       exact loadingNames_get_alpha fnames hf pnames (i : ℕ) (hp ▸ i.isLt))
  · intro r hr
    simp only [twoPassFit] at hr
    repeat' split at hr
    all_goals try exact Except.noConfusion hr
    all_goals injection hr with h
    all_goals subst h
    all_goals constructor
    all_goals try
      (intro i j
       show sliceBlock (N * (K + 1) + (K + nrfOf e)) N _ _ i j = _
       simp only [sliceBlock, finShift, Matrix.of_apply]
       congr 1 <;> apply Fin.ext <;>
         simp [twoPassOrderF_alpha])
    all_goals
      (intro i
       show (twoPassParamNames e pnames fnames)[(i : ℕ) * (K + 1)]? = _
       unfold twoPassParamNames
       rw [List.append_assoc, List.getElem?_append_left (by
         rw [loadingNames_length, hp, hf]
         exact (Nat.mul_lt_mul_right (show 0 < K + 1 by omega)).mpr i.isLt)]
       exact loadingNames_get_alpha fnames hf pnames (i : ℕ) (hp ▸ i.isLt))
  · intro r hr
    simp only [gmmFit] at hr
    repeat' split at hr
    all_goals try exact Except.noConfusion hr
    all_goals injection hr with h
    all_goals subst h
    all_goals constructor
    all_goals try (intro s hs y; exact gmmParamNames_no_alpha hs y)
    all_goals exact ⟨_, rfl, rfl, rfl⟩

set_option maxRecDepth 100000 in
set_option maxHeartbeats 2000000 in
/-- C5 counterexample to the original claim: the GMM estimator's parameter
layout has no alpha positions at all — its name list is exactly
`(betas, risk premia, factor means)` with no `alpha-` entry — and on a
concrete successful fit the returned alpha covariance entry differs from
every entry of the returned full covariance, so it is not a sub-block of it
at any positions. -/
theorem claim_C5_counterexample :
    gmmParamNames true ["p1"] ["f1"] = ["beta-p1-f1", "lambda-f1", "mu-f1"] ∧
    wResGmmOk.alphaVcv 0 0 = 9 / 80 ∧
    wResGmmOk.alphaVcv 0 0 ≠ wResGmmOk.cov ⟨0, by decide⟩ ⟨0, by decide⟩ ∧
    wResGmmOk.alphaVcv 0 0 ≠ wResGmmOk.cov ⟨0, by decide⟩ ⟨1, by decide⟩ ∧
    wResGmmOk.alphaVcv 0 0 ≠ wResGmmOk.cov ⟨0, by decide⟩ ⟨2, by decide⟩ ∧
    wResGmmOk.alphaVcv 0 0 ≠ wResGmmOk.cov ⟨1, by decide⟩ ⟨0, by decide⟩ ∧
    wResGmmOk.alphaVcv 0 0 ≠ wResGmmOk.cov ⟨1, by decide⟩ ⟨1, by decide⟩ ∧
    wResGmmOk.alphaVcv 0 0 ≠ wResGmmOk.cov ⟨1, by decide⟩ ⟨2, by decide⟩ ∧
    wResGmmOk.alphaVcv 0 0 ≠ wResGmmOk.cov ⟨2, by decide⟩ ⟨0, by decide⟩ ∧
    wResGmmOk.alphaVcv 0 0 ≠ wResGmmOk.cov ⟨2, by decide⟩ ⟨1, by decide⟩ ∧
    wResGmmOk.alphaVcv 0 0 ≠ wResGmmOk.cov ⟨2, by decide⟩ ⟨2, by decide⟩ := by
  refine ⟨rfl, by decide, ?_, ?_, ?_, ?_, ?_, ?_, ?_, ?_, ?_⟩ <;> decide

set_option maxRecDepth 100000 in
set_option maxHeartbeats 2000000 in
/-- C5 witness: the amended congruence facts at a concrete fit — for the
traded and two-pass estimators the alpha covariance entry is the covariance
entry at position `0 = 0*(K+1)` and the name there is `alpha-p1`, while a
GMM parameter name such as `lambda-f1` never has the `alpha-` shape. -/
theorem claim_C5_witness :
    wResTradedOk.alphaVcv 0 0 = wResTradedOk.cov ⟨0, by decide⟩ ⟨0, by decide⟩ ∧
    wResTradedOk.paramNames[0]? = some "alpha-p1" ∧
    wRes2pOk.alphaVcv 0 0 = wRes2pOk.cov ⟨0, by decide⟩ ⟨0, by decide⟩ ∧
    wRes2pOk.paramNames[0]? = some "alpha-p1" ∧
    "lambda-f1" ≠ "alpha-" ++ "f1" := by
  have h := claim_C5 (T := 4) (N := 1) (K := 1) sqPinv neLstsq true wMin 2 wP wF
    ["p1"] ["f1"] "robust" "robust" "robust" true ⟨none, none⟩ rfl rfl
  exact ⟨(h.1 wResTradedOk rfl).1 0 0, (h.1 wResTradedOk rfl).2 0,
    (h.2.1 wRes2pOk (by rfl)).1 0 0, (h.2.1 wRes2pOk (by rfl)).2 0,
    (h.2.2 wResGmmOk (by rfl)).1 "lambda-f1" (by decide) "f1"⟩

/-- C8: for every recognized kernel name, the kernel covariance at bandwidth 0
is the pure contemporaneous outer-product term — the robust covariance — for
any moment matrix; in particular the `kernel` covariance pair of the traded
fit at bandwidth 0 coincides with the `robust` pair on both the stacked moment
matrix and the demeaned-factor block. -/
theorem claim_C8 {T N K : ℕ} (kname : String) (hk : kname ∈ knownKernels)
    (xe : Mat T (N * (K + 1) + K)) (fe : Mat T K) :
    covKernel xe (kernelWeight kname 0) 0 = mdiv (xeᵀ * xe) (T : ℚ) ∧
    covKernel fe (kernelWeight kname 0) 0 = mdiv (feᵀ * fe) (T : ℚ) ∧
    tradedCovPair "kernel" ⟨some kname, some 0⟩ xe fe =
      tradedCovPair "robust" ⟨some kname, some 0⟩ xe fe := by
  have hker : ∀ (M : ℕ) (x : Mat T M),
      covKernel x (kernelWeight kname 0) 0 = mdiv (xᵀ * x) (T : ℚ) := by
    intro M x
    unfold covKernel
    rw [show Finset.Icc 1 0 = (∅ : Finset ℕ) from Finset.Icc_eq_empty (by omega)]
    rw [show kernelWeight kname 0 0 = 1 from rfl]
    simp
  refine ⟨hker _ xe, hker _ fe, ?_⟩
  simp [tradedCovPair, hk, hker _ xe, hker _ fe]

/-- C8 witness: the coincidence at the Bartlett kernel on a concrete
two-period input. -/
theorem claim_C8_witness :
    ("bartlett" ∈ knownKernels) ∧
    tradedCovPair (T := 2) (N := 1) (K := 1) "kernel" ⟨some "bartlett", some 0⟩
        (Matrix.of fun _ _ => 1) (Matrix.of fun _ _ => 1) =
      tradedCovPair (T := 2) (N := 1) (K := 1) "robust" ⟨some "bartlett", some 0⟩
        (Matrix.of fun _ _ => 1) (Matrix.of fun _ _ => 1) :=
  ⟨by decide, (claim_C8 "bartlett" (by decide) _ _).2.2⟩

/-- Every error returned by the two-pass fit comes out of `numpy.linalg.inv`,
hence is `LinAlgError`. -/
theorem twoPassFit_error {T N K : ℕ}
    {lstsqO : (m a q : ℕ) → Mat m a → Mat m q → Mat a q} {e : Bool}
    {p : Mat T N} {f : Mat T K} {pnames fnames : List String} {ct : String}
    {err : ModelError}
    (hr : twoPassFit lstsqO e p f pnames fnames ct = .error err) :
    err = .linAlgError := by
  simp only [twoPassFit] at hr
  repeat' split at hr
  all_goals try exact Except.noConfusion hr
  all_goals injection hr with h2
  all_goals subst h2
  all_goals exact ((npInv_error_iff _ _).mp (by assumption)).2

/-- An error escaping the GMM step loop is an error of the weighting-matrix
constructor at some parameter vector. -/
theorem gmmStepLoop_error {P M : ℕ} (wOf : Mat P 1 → Except ModelError (Mat M M))
    (minO : Mat P 1 → Mat M M → Mat P 1 × ℚ) :
    ∀ (s : ℕ) (par : Mat P 1) (o : ℚ) (w : Mat M M) (err : ModelError),
      gmmStepLoop wOf minO s par o w = .error err → ∃ θ, wOf θ = .error err := by
  intro s
  induction s with
  | zero =>
    intro par o w err hr
    simp only [gmmStepLoop] at hr
    exact Except.noConfusion hr
  | succ m ih =>
    intro par o w err hr
    simp only [gmmStepLoop] at hr
    split at hr
    · injection hr with h2
      subst h2
      exact ⟨par, by assumption⟩
    · split at hr
      · exact Except.noConfusion hr
      · split at hr
        · injection hr with h2
          subst h2
          exact ih _ _ _ _ (by assumption)
        · exact Except.noConfusion hr

/-- C7 (amended): every singular-inverse failure surfaces as `LinAlgError`
(the exception type of `numpy.linalg.inv`), never as a designated
`SingularJacobianError` or `SingularMatrixError`: a singular two-pass
Jacobian `G` makes the two-pass fit return `LinAlgError`, every error of the
two-pass fit is `LinAlgError`, and every error of the GMM fit is
`LinAlgError`. -/
theorem claim_C7 {T N K : ℕ}
    (lstsqO : (m a q : ℕ) → Mat m a → Mat m q → Mat a q) (e : Bool)
    (minimizeO : Mat (gmmP N K e) 1 → Mat (gmmMomentCols N K) (gmmMomentCols N K) →
      Mat (gmmP N K e) 1 × ℚ)
    (steps : ℕ) (p : Mat T N) (f : Mat T K) (pnames fnames : List String)
    (ct2 ct3 : String) :
    (detQ (twoPassGOf lstsqO e p f) = 0 →
      twoPassFit lstsqO e p f pnames fnames ct2 = .error .linAlgError) ∧
    (∀ err, twoPassFit lstsqO e p f pnames fnames ct2 = .error err →
      err = .linAlgError) ∧
    (∀ err, gmmFit e lstsqO minimizeO steps p f pnames fnames ct3 = .error err →
      err = .linAlgError) := by
  refine ⟨?_, fun err hr => twoPassFit_error hr, ?_⟩
  · intro h
    have hinv : npInv (twoPassGOf lstsqO e p f) = .error .linAlgError :=
      npInv_err _ ((detQ_eq_det _).symm.trans h)
    simp only [twoPassGOf] at hinv
    simp only [twoPassFit]
    rw [hinv]
  · intro err hr
    simp only [gmmFit] at hr
    repeat' split at hr
    all_goals try exact Except.noConfusion hr
    all_goals injection hr with h2
    all_goals subst h2
    all_goals first
      | exact ((npInv_error_iff _ _).mp (by assumption)).2
      | exact twoPassFit_error (by assumption)
      | (obtain ⟨θ, hθ⟩ := gmmStepLoop_error _ _ _ _ _ _ _ (by assumption)
         exact ((npInv_error_iff _ _).mp hθ).2)

set_option maxRecDepth 100000 in
/-- C7 counterexample to the original claim: on a concrete input whose
two-pass Jacobian `G` is singular the two-pass fit returns `LinAlgError`,
which is not `SingularJacobianError`; and on a concrete input whose initial
GMM weighting matrix is singular the GMM fit returns `LinAlgError`, which is
not `SingularMatrixError`. -/
theorem claim_C7_counterexample :
    detQ (twoPassGOf neLstsq true singP singF) = 0 ∧
    twoPassFit neLstsq true singP singF ["p1"] ["f1"] "robust" =
      .error .linAlgError ∧
    ModelError.linAlgError ≠ ModelError.singularJacobianError ∧
    gmmFit true neLstsq wMin 2 c7P c7F ["p1"] ["f1"] "robust" =
      .error .linAlgError ∧
    ModelError.linAlgError ≠ ModelError.singularMatrixError := by
  refine ⟨by decide, by rfl, fun h => ModelError.noConfusion h, by rfl,
    fun h => ModelError.noConfusion h⟩

set_option maxRecDepth 100000 in
/-- C7 witness: the amended behaviour at the two concrete singular inputs. -/
theorem claim_C7_witness :
    twoPassFit neLstsq true singP singF ["p1"] ["f1"] "robust" =
      .error .linAlgError ∧
    ModelError.linAlgError = ModelError.linAlgError := by
  have h := claim_C7 (T := 2) (N := 1) (K := 1) neLstsq true wMin 2 singP singF
    ["p1"] ["f1"] "robust" "robust"
  refine ⟨h.1 (by decide), ?_⟩
  have h2 := claim_C7 (T := 2) (N := 1) (K := 1) neLstsq true wMin 2 c7P c7F
    ["p1"] ["f1"] "robust" "robust"
  exact h2.2.2 ModelError.linAlgError (by rfl)

/-- The iteration count reported by the step loop never exceeds the remaining
step budget. -/
theorem gmmStepLoop_count_le {P M : ℕ}
    (wOf : Mat P 1 → Except ModelError (Mat M M))
    (minO : Mat P 1 → Mat M M → Mat P 1 × ℚ) :
    ∀ (s : ℕ) (par : Mat P 1) (o : ℚ) (w : Mat M M)
      (r : Mat P 1 × ℚ × Mat M M × ℕ),
      gmmStepLoop wOf minO s par o w = .ok r → r.2.2.2 ≤ s := by
  intro s
  induction s with
  | zero =>
    intro par o w r hr
    simp only [gmmStepLoop] at hr
    injection hr with h2
    subst h2
    exact Nat.le_refl 0
  | succ m ih =>
    intro par o w r hr
    simp only [gmmStepLoop] at hr
    split at hr
    · exact Except.noConfusion hr
    · split at hr
      · injection hr with h2
        subst h2
        show 1 ≤ m + 1
        omega
      · split at hr
        · exact Except.noConfusion hr
        · injection hr with h2
          subst h2
          rename_i val heq
          have := ih _ _ _ _ heq
          simp only at this ⊢
          omega

/-- A step loop entered with a positive budget reports at least one
iteration on success. -/
theorem gmmStepLoop_count_pos {P M : ℕ}
    (wOf : Mat P 1 → Except ModelError (Mat M M))
    (minO : Mat P 1 → Mat M M → Mat P 1 × ℚ) :
    ∀ (m : ℕ) (par : Mat P 1) (o : ℚ) (w : Mat M M)
      (r : Mat P 1 × ℚ × Mat M M × ℕ),
      gmmStepLoop wOf minO (m + 1) par o w = .ok r → 1 ≤ r.2.2.2 := by
  intro m par o w r hr
  simp only [gmmStepLoop] at hr
  split at hr
  · exact Except.noConfusion hr
  · split at hr
    · injection hr with h2
      subst h2
      exact Nat.le_refl 1
    · split at hr
      · exact Except.noConfusion hr
      · injection hr with h2
        subst h2
        simp only
        omega

/-- If the weighting-matrix constructor never fails, the step loop never
fails. -/
theorem gmmStepLoop_total {P M : ℕ}
    (wOf : Mat P 1 → Except ModelError (Mat M M))
    (minO : Mat P 1 → Mat M M → Mat P 1 × ℚ)
    (h : ∀ θ, ∃ w', wOf θ = .ok w') :
    ∀ (s : ℕ) (par : Mat P 1) (o : ℚ) (w : Mat M M),
      ∃ r, gmmStepLoop wOf minO s par o w = .ok r := by
  intro s
  induction s with
  | zero =>
    intro par o w
    exact ⟨_, rfl⟩
  | succ m ih =>
    intro par o w
    obtain ⟨w2, hw⟩ := h par
    simp only [gmmStepLoop, hw]
    by_cases hc : |(minO par w2).2 - o| < 1 / 1000000
    · rw [if_pos hc]
      exact ⟨_, rfl⟩
    · rw [if_neg hc]
      obtain ⟨r0, hr0⟩ := ih (minO par w2).1 (minO par w2).2 w2
      obtain ⟨pf, o2, wf, c⟩ := r0
      rw [hr0]
      exact ⟨_, rfl⟩

/-- One unfolding of a loop round whose tolerance test fails: the round
recurses and increments the returned count. -/
theorem gmmStepLoop_succ_eq {P M : ℕ}
    (wOf : Mat P 1 → Except ModelError (Mat M M))
    (minO : Mat P 1 → Mat M M → Mat P 1 × ℚ) (s : ℕ) (par : Mat P 1) (o : ℚ)
    (w : Mat M M) (w2 : Mat M M) (p1 : Mat P 1) (o1 : ℚ)
    (hw : wOf par = .ok w2) (hm : minO par w2 = (p1, o1))
    (hc : ¬ |o1 - o| < 1 / 1000000) :
    gmmStepLoop wOf minO (s + 1) par o w =
      match gmmStepLoop wOf minO s p1 o1 w2 with
      | .error e => .error e
      | .ok (pf, o2, wf, c) => .ok (pf, o2, wf, c + 1) := by
  simp only [gmmStepLoop, hw, hm]
  rw [if_neg hc]

/-- C6: the GMM outer loop's behaviour — on success the total number of
weighting/minimization rounds (the initial round plus the loop's count) is at
most `steps`; a loop round terminates early returning the fresh minimizer
output and weight exactly when the objective moved by less than `1e-6` or the
budget is exhausted afterwards; and when the weighting-matrix construction
never fails, the loop reaches the end of its budget without raising any
error. -/
theorem claim_C6 {P M : ℕ} (wOf : Mat P 1 → Except ModelError (Mat M M))
    (minO : Mat P 1 → Mat M M → Mat P 1 × ℚ) (steps : ℕ) (hs : 1 ≤ steps)
    (par : Mat P 1) (o : ℚ) (w : Mat M M) :
    (∀ r, gmmStepLoop wOf minO (steps - 1) par o w = .ok r →
      1 + r.2.2.2 ≤ steps) ∧
    (∀ s w2 p1 o1, wOf par = .ok w2 → minO par w2 = (p1, o1) →
      (gmmStepLoop wOf minO (s + 1) par o w = .ok (p1, o1, w2, 1) ↔
        |o1 - o| < 1 / 1000000 ∨ s = 0)) ∧
    ((∀ θ, ∃ w', wOf θ = .ok w') →
      ∃ r, gmmStepLoop wOf minO (steps - 1) par o w = .ok r) := by
  refine ⟨?_, ?_, fun h => gmmStepLoop_total wOf minO h _ par o w⟩
  · intro r hr
    have := gmmStepLoop_count_le wOf minO _ _ _ _ _ hr
    omega
  · intro s w2 p1 o1 hw hm
    constructor
    · intro hr
      by_cases hc : |o1 - o| < 1 / 1000000
      · exact Or.inl hc
      · rcases Nat.eq_zero_or_pos s with h0 | h0
        · exact Or.inr h0
        · exfalso
          obtain ⟨m, rfl⟩ : ∃ m, s = m + 1 := ⟨s - 1, by omega⟩
          rw [gmmStepLoop_succ_eq wOf minO (m + 1) par o w w2 p1 o1 hw hm hc] at hr
          split at hr
          · exact Except.noConfusion hr
          · rename_i val heq
            injection hr with h3
            have hcnt := gmmStepLoop_count_pos wOf minO _ _ _ _ _ heq
            have h4 := congrArg (fun x : Mat P 1 × ℚ × Mat M M × ℕ => x.2.2.2) h3
            simp only at h4 hcnt
            omega
    · intro hc
      simp only [gmmStepLoop, hw, hm]
      rcases hc with hc | rfl
      · rw [if_pos hc]
      · by_cases h0 : |o1 - o| < 1 / 1000000
        · rw [if_pos h0]
        · rw [if_neg h0]
          simp only [gmmStepLoop]

/-- C6 witness: the loop facts at a concrete constant weighting oracle and
minimizer with a two-step budget. -/
theorem claim_C6_witness :
    (gmmStepLoop c6WOf c6Min 1 0 5 0 = .ok (0, 0, 0, 1) ↔
      |(0 : ℚ) - 5| < 1 / 1000000 ∨ (0 : ℕ) = 0) ∧
    (∃ r, gmmStepLoop c6WOf c6Min 1 0 5 0 = .ok r) := by
  have h := claim_C6 c6WOf c6Min 2 (by omega) 0 5 0
  exact ⟨h.2.1 0 0 0 0 rfl rfl, h.2.2 fun θ => ⟨0, rfl⟩⟩

theorem appendPerm_lt {A B : ℕ} (pL : Equiv.Perm (Fin A)) (pR : Equiv.Perm (Fin B))
    (i : Fin (A + B)) (h : (i : ℕ) < A) :
    (appendPerm pL pR i : ℕ) = (pL ⟨(i : ℕ), h⟩ : ℕ) := by
  simp only [appendPerm, Equiv.trans_apply, Equiv.sumCongr_apply]
  rcases hs : finSumFinEquiv.symm i with a | b
  · have hia : i = Fin.castAdd B a := by
      have h2 := congrArg finSumFinEquiv hs
      simpa using h2
    have hval : (a : ℕ) = (i : ℕ) := by rw [hia]; rfl
    simp only [Sum.map_inl, finSumFinEquiv_apply_left, Fin.coe_castAdd]
    have ha : a = (⟨(i : ℕ), h⟩ : Fin A) := Fin.ext hval
    rw [ha]
  · exfalso
    have hib : i = Fin.natAdd A b := by
      have h2 := congrArg finSumFinEquiv hs
      simpa using h2
    have : (i : ℕ) = A + (b : ℕ) := by rw [hib]; rfl
    omega

theorem appendPerm_ge {A B : ℕ} (pL : Equiv.Perm (Fin A)) (pR : Equiv.Perm (Fin B))
    (i : Fin (A + B)) (h : A ≤ (i : ℕ)) :
    (appendPerm pL pR i : ℕ) =
      A + (pR ⟨(i : ℕ) - A, by have := i.isLt; omega⟩ : ℕ) := by
  simp only [appendPerm, Equiv.trans_apply, Equiv.sumCongr_apply]
  rcases hs : finSumFinEquiv.symm i with a | b
  · exfalso
    have hia : i = Fin.castAdd B a := by
      have h2 := congrArg finSumFinEquiv hs
      simpa using h2
    have : (i : ℕ) = (a : ℕ) := by rw [hia]; rfl
    have := a.isLt
    omega
  · have hib : i = Fin.natAdd A b := by
      have h2 := congrArg finSumFinEquiv hs
      simpa using h2
    have hval : (i : ℕ) = A + (b : ℕ) := by rw [hib]; rfl
    simp only [Sum.map_inr, finSumFinEquiv_apply_right, Fin.coe_natAdd]
    have hb : b = (⟨(i : ℕ) - A, by have := i.isLt; omega⟩ : Fin B) :=
      Fin.ext (show (b : ℕ) = (i : ℕ) - A by omega)
    rw [hb]

theorem colBlockPerm_apply {N L : ℕ} (σ : Equiv.Perm (Fin N)) (x : Fin (N * L)) :
    (colBlockPerm L σ x : ℕ) =
      (x : ℕ) % L + L *
        (σ ⟨(x : ℕ) / L, Nat.div_lt_of_lt_mul (lt_of_lt_of_eq x.isLt (Nat.mul_comm N L))⟩ : ℕ) := by
  simp [colBlockPerm, finProdFinEquiv, Fin.divNat, Fin.modNat]

theorem colBlockPerm_mod {N L : ℕ} (σ : Equiv.Perm (Fin N)) (x : Fin (N * L)) :
    (colBlockPerm L σ x : ℕ) % L = (x : ℕ) % L := by
  rw [colBlockPerm_apply]
  rcases Nat.eq_zero_or_pos L with h | h
  · exact absurd x.isLt (by simp [h])
  · rw [Nat.add_mul_mod_self_left, Nat.mod_mod_of_dvd _ dvd_rfl]

theorem colBlockPerm_div {N L : ℕ} (σ : Equiv.Perm (Fin N)) (x : Fin (N * L)) :
    (colBlockPerm L σ x : ℕ) / L =
      (σ ⟨(x : ℕ) / L, Nat.div_lt_of_lt_mul (lt_of_lt_of_eq x.isLt (Nat.mul_comm N L))⟩ : ℕ) := by
  rw [colBlockPerm_apply]
  rcases Nat.eq_zero_or_pos L with h | h
  · exact absurd x.isLt (by simp [h])
  · rw [Nat.add_mul_div_left _ _ h, Nat.div_eq_of_lt (Nat.mod_lt _ h)]
    omega

theorem mul_submatrix_id {m n p q : ℕ} (A : Mat m n) (B : Mat n p) (e : Fin q → Fin p) :
    A * B.submatrix id e = (A * B).submatrix id e := by
  ext i j
  simp [Matrix.mul_apply]

theorem meanCols_submatrix {T M q : ℕ} (A : Mat T M) (e : Fin q → Fin M) :
    meanCols (A.submatrix id e) = (meanCols A).submatrix e id := by
  ext i j
  simp [meanCols]

theorem demeanCols_submatrix {T M q : ℕ} (A : Mat T M) (e : Fin q → Fin M) :
    demeanCols (A.submatrix id e) = (demeanCols A).submatrix id e := by
  ext i j
  simp [demeanCols]

theorem gram_submatrix {T M : ℕ} (A : Mat T M) (e : Equiv.Perm (Fin M)) :
    (A.submatrix id ⇑e)ᵀ * (A.submatrix id ⇑e) = (Aᵀ * A).submatrix ⇑e ⇑e := by
  ext i j
  simp [Matrix.mul_apply]

theorem lagProd_submatrix {T M : ℕ} (A : Mat T M) (e : Equiv.Perm (Fin M)) (j : ℕ) :
    lagProd (A.submatrix id ⇑e) j = (lagProd A j).submatrix ⇑e ⇑e := by
  ext a b
  simp [lagProd]

theorem covKernel_submatrix {T M : ℕ} (A : Mat T M) (e : Equiv.Perm (Fin M))
    (w : ℕ → ℚ) (bw : ℕ) :
    covKernel (A.submatrix id ⇑e) w bw = (covKernel A w bw).submatrix ⇑e ⇑e := by
  unfold covKernel
  rw [gram_submatrix]
  ext i j
  simp [mdiv, lagProd_submatrix, Matrix.transpose_submatrix, Matrix.sum_apply]

theorem submatrix_mul_cancel {m n p : ℕ} (A : Mat m n) (B : Mat n p)
    (e : Equiv.Perm (Fin n)) :
    (A.submatrix id ⇑e) * (B.submatrix ⇑e id) = A * B := by
  rw [Matrix.submatrix_mul_equiv A B id e id]
  rfl

theorem isMP_unique {m n : ℕ} {A : Mat m n} {B C : Mat n m}
    (hB : IsMP A B) (hC : IsMP A C) : B = C := by
  obtain ⟨hB1, hB2, hB3, hB4⟩ := hB
  obtain ⟨hC1, hC2, hC3, hC4⟩ := hC
  have hAt1 : Aᵀ = Aᵀ * (A * C) := by
    conv_lhs => rw [← hC1]
    rw [Matrix.transpose_mul (A * C) A, hC3]
  have hAt2 : Aᵀ = (C * A) * Aᵀ := by
    conv_lhs => rw [← hC1]
    rw [Matrix.mul_assoc A C A, Matrix.transpose_mul A (C * A), hC4]
  have hAB : A * B = A * C := by
    calc A * B = (A * B)ᵀ := hB3.symm
    _ = Bᵀ * Aᵀ := Matrix.transpose_mul A B
    _ = Bᵀ * (Aᵀ * (A * C)) := by rw [← hAt1]
    _ = (Bᵀ * Aᵀ) * (A * C) := by simp only [Matrix.mul_assoc]
    _ = (A * B)ᵀ * (A * C) := by rw [Matrix.transpose_mul A B]
    _ = (A * B) * (A * C) := by rw [hB3]
    _ = ((A * B) * A) * C := by simp only [Matrix.mul_assoc]
    _ = A * C := by rw [hB1]
  have hBA : B * A = C * A := by
    calc B * A = (B * A)ᵀ := hB4.symm
    _ = Aᵀ * Bᵀ := Matrix.transpose_mul B A
    _ = ((C * A) * Aᵀ) * Bᵀ := by rw [← hAt2]
    _ = (C * A) * (Aᵀ * Bᵀ) := by simp only [Matrix.mul_assoc]
    _ = (C * A) * (B * A)ᵀ := by rw [Matrix.transpose_mul B A]
    _ = (C * A) * (B * A) := by rw [hB4]
    _ = C * ((A * B) * A) := by simp only [Matrix.mul_assoc]
    _ = C * A := by rw [hB1]
  calc B = (B * A) * B := by rw [hB2]
  _ = (C * A) * B := by rw [hBA]
  _ = C * (A * B) := by simp only [Matrix.mul_assoc]
  _ = C * (A * C) := by rw [hAB]
  _ = (C * A) * C := by simp only [Matrix.mul_assoc]
  _ = C := by rw [hC2]

theorem isMP_submatrix {m n : ℕ} {A : Mat m n} {B : Mat n m}
    (σ : Equiv.Perm (Fin m)) (τ : Equiv.Perm (Fin n)) (h : IsMP A B) :
    IsMP (A.submatrix ⇑σ ⇑τ) (B.submatrix ⇑τ ⇑σ) := by
  obtain ⟨h1, h2, h3, h4⟩ := h
  refine ⟨?_, ?_, ?_, ?_⟩
  · rw [Matrix.submatrix_mul_equiv A B σ τ σ, Matrix.submatrix_mul_equiv (A * B) A σ σ τ, h1]
  · rw [Matrix.submatrix_mul_equiv B A τ σ τ, Matrix.submatrix_mul_equiv (B * A) B τ τ σ, h2]
  · rw [Matrix.submatrix_mul_equiv A B σ τ σ, Matrix.transpose_submatrix, h3]
  · rw [Matrix.submatrix_mul_equiv B A τ σ τ, Matrix.transpose_submatrix, h4]

theorem epsRepTraded_apply {T N : ℕ} (K : ℕ) (eps : Mat T N) (t : Fin T)
    (c : Fin (N * (K + 1))) :
    epsRepTraded K eps t c =
      eps t ⟨(c : ℕ) / (K + 1),
        Nat.div_lt_of_lt_mul (lt_of_lt_of_eq c.isLt (Nat.mul_comm N (K + 1)))⟩ := by
  unfold epsRepTraded reshapeF ravelF tileRows idxModDiv
  simp only [Matrix.of_apply]
  congr 1
  · apply Fin.ext
    show ((c : ℕ) * T + (t : ℕ)) % ((K + 1) * T) % T = (t : ℕ)
    rw [Nat.mod_mod_of_dvd _ (⟨K + 1, Nat.mul_comm (K + 1) T⟩ : T ∣ (K + 1) * T)]
    rw [Nat.mul_add_mod']
    exact Nat.mod_eq_of_lt t.isLt
  · apply Fin.ext
    show ((c : ℕ) * T + (t : ℕ)) / ((K + 1) * T) = (c : ℕ) / (K + 1)
    rw [Nat.mul_comm (K + 1) T, ← Nat.div_div_eq_div_mul]
    congr 1
    rw [Nat.mul_comm (c : ℕ) T, Nat.mul_add_div t.pos, Nat.div_eq_of_lt t.isLt]
    omega

theorem epsRepCross_apply {T N : ℕ} (K : ℕ) (eps : Mat T N) (t : Fin T)
    (c : Fin (N * (K + 1))) :
    epsRepCross K eps t c =
      eps t ⟨(c : ℕ) / (K + 1),
        Nat.div_lt_of_lt_mul (lt_of_lt_of_eq c.isLt (Nat.mul_comm N (K + 1)))⟩ := by
  unfold epsRepCross reshapeC ravelC tileRows idxModDiv
  simp only [Matrix.transpose_apply, Matrix.of_apply]
  congr 1
  · apply Fin.ext
    show ((c : ℕ) * T + (t : ℕ)) % ((K + 1) * T) % T = (t : ℕ)
    rw [Nat.mod_mod_of_dvd _ (⟨K + 1, Nat.mul_comm (K + 1) T⟩ : T ∣ (K + 1) * T)]
    rw [Nat.mul_add_mod']
    exact Nat.mod_eq_of_lt t.isLt
  · apply Fin.ext
    show ((c : ℕ) * T + (t : ℕ)) / ((K + 1) * T) = (c : ℕ) / (K + 1)
    rw [Nat.mul_comm (K + 1) T, ← Nat.div_div_eq_div_mul]
    congr 1
    rw [Nat.mul_comm (c : ℕ) T, Nat.mul_add_div t.pos, Nat.div_eq_of_lt t.isLt]
    omega

theorem tileCols_apply {m n : ℕ} (A : Mat m n) (r : ℕ) (i : Fin m) (j : Fin (r * n))
    (h : (j : ℕ) % n < n) : tileCols A r i j = A i ⟨(j : ℕ) % n, h⟩ := rfl

theorem tradedXe_perm {T N K : ℕ} (fc : Mat T (K + 1)) (eps : Mat T N) (fe : Mat T K)
    (σ : Equiv.Perm (Fin N)) :
    tradedXe fc (eps.submatrix id ⇑σ) fe =
      (tradedXe fc eps fe).submatrix id ⇑(tradedMomPerm N K σ) := by
  ext t c
  simp only [tradedXe, hcat, hada, Matrix.submatrix_apply, Matrix.of_apply, id_eq]
  by_cases hc : (c : ℕ) < N * (K + 1)
  · have hππ : (tradedMomPerm N K σ c : ℕ) = (colBlockPerm (K + 1) σ ⟨(c : ℕ), hc⟩ : ℕ) :=
      appendPerm_lt _ _ c hc
    have hπlt : (tradedMomPerm N K σ c : ℕ) < N * (K + 1) := by
      rw [hππ]; exact (colBlockPerm (K + 1) σ ⟨(c : ℕ), hc⟩).isLt
    rw [dif_pos hc, dif_pos hπlt]
    rw [tileCols_apply _ _ _ _ (Nat.mod_lt _ (Nat.succ_pos K)),
      tileCols_apply _ _ _ _ (Nat.mod_lt _ (Nat.succ_pos K)),
      epsRepTraded_apply, epsRepTraded_apply]
    have hmod : (tradedMomPerm N K σ c : ℕ) % (K + 1) = (c : ℕ) % (K + 1) := by
      rw [hππ]; exact colBlockPerm_mod σ ⟨(c : ℕ), hc⟩
    have hdiv : (tradedMomPerm N K σ c : ℕ) / (K + 1) =
        (σ ⟨(c : ℕ) / (K + 1), Nat.div_lt_of_lt_mul
          (lt_of_lt_of_eq hc (Nat.mul_comm N (K + 1)))⟩ : ℕ) := by
      rw [hππ]; exact colBlockPerm_div σ ⟨(c : ℕ), hc⟩
    simp only [Matrix.submatrix_apply, id_eq]
    congr 1
    · congr 1
      exact Fin.ext hmod.symm
    · congr 1
      exact Fin.ext hdiv.symm
  · have hππ : (tradedMomPerm N K σ c : ℕ) = (c : ℕ) := by
      have h2 : (tradedMomPerm N K σ c : ℕ) =
          N * (K + 1) + ((Equiv.refl (Fin K))
            ⟨(c : ℕ) - N * (K + 1), by have := c.isLt; omega⟩ : Fin K).val :=
        appendPerm_ge _ _ c (le_of_not_lt hc)
      refine h2.trans ?_
      show N * (K + 1) + ((c : ℕ) - N * (K + 1)) = (c : ℕ)
      have := c.isLt
      omega
    have hπge : ¬ (tradedMomPerm N K σ c : ℕ) < N * (K + 1) := by rw [hππ]; exact hc
    rw [dif_neg hc, dif_neg hπge]
    congr 1
    exact Fin.ext (show (c : ℕ) - N * (K + 1) =
      (tradedMomPerm N K σ c : ℕ) - N * (K + 1) by omega)

theorem npKron_eye_apply {N L : ℕ} (hL : 0 < L) (W : Mat L L) (a b : Fin (N * L)) :
    npKron (eyeQ N) W a b =
      (if (a : ℕ) / L = (b : ℕ) / L then 1 else 0) *
        W ⟨(a : ℕ) % L, Nat.mod_lt _ hL⟩ ⟨(b : ℕ) % L, Nat.mod_lt _ hL⟩ := rfl

theorem fin_perm_val_eq {N : ℕ} (σ : Equiv.Perm (Fin N)) (a b : Fin N) :
    ((σ a : ℕ) = (σ b : ℕ)) ↔ (a : ℕ) = (b : ℕ) := by
  constructor
  · intro h
    have : σ a = σ b := Fin.ext h
    exact congrArg Fin.val (σ.injective this)
  · intro h
    exact congrArg Fin.val (congrArg σ (Fin.ext h))

theorem tradedXpxi_perm {N K : ℕ} (W : Mat (K + 1) (K + 1)) (σ : Equiv.Perm (Fin N)) :
    (tradedXpxi N K W).submatrix ⇑(tradedMomPerm N K σ) ⇑(tradedMomPerm N K σ) =
      tradedXpxi N K W := by
  ext i j
  simp only [Matrix.submatrix_apply, tradedXpxi, Matrix.of_apply]
  by_cases hi : (i : ℕ) < N * (K + 1) <;> by_cases hj : (j : ℕ) < N * (K + 1)
  · have hπi : (tradedMomPerm N K σ i : ℕ) = (colBlockPerm (K + 1) σ ⟨(i : ℕ), hi⟩ : ℕ) :=
      appendPerm_lt _ _ i hi
    have hπj : (tradedMomPerm N K σ j : ℕ) = (colBlockPerm (K + 1) σ ⟨(j : ℕ), hj⟩ : ℕ) :=
      appendPerm_lt _ _ j hj
    have hilt : (tradedMomPerm N K σ i : ℕ) < N * (K + 1) := by
      rw [hπi]; exact (colBlockPerm (K + 1) σ ⟨(i : ℕ), hi⟩).isLt
    have hjlt : (tradedMomPerm N K σ j : ℕ) < N * (K + 1) := by
      rw [hπj]; exact (colBlockPerm (K + 1) σ ⟨(j : ℕ), hj⟩).isLt
    have hdi : (tradedMomPerm N K σ i : ℕ) / (K + 1) =
        (σ ⟨(i : ℕ) / (K + 1), Nat.div_lt_of_lt_mul
          (lt_of_lt_of_eq hi (Nat.mul_comm N (K + 1)))⟩ : ℕ) := by
      rw [hπi]; exact colBlockPerm_div σ _
    have hdj : (tradedMomPerm N K σ j : ℕ) / (K + 1) =
        (σ ⟨(j : ℕ) / (K + 1), Nat.div_lt_of_lt_mul
          (lt_of_lt_of_eq hj (Nat.mul_comm N (K + 1)))⟩ : ℕ) := by
      rw [hπj]; exact colBlockPerm_div σ _
    have hmi : (tradedMomPerm N K σ i : ℕ) % (K + 1) = (i : ℕ) % (K + 1) := by
      rw [hπi]; exact colBlockPerm_mod σ _
    have hmj : (tradedMomPerm N K σ j : ℕ) % (K + 1) = (j : ℕ) % (K + 1) := by
      rw [hπj]; exact colBlockPerm_mod σ _
    rw [dif_pos hilt, dif_pos hjlt, dif_pos hi, dif_pos hj]
    rw [npKron_eye_apply (Nat.succ_pos K), npKron_eye_apply (Nat.succ_pos K)]
    refine congrArg₂ (· * ·) ?_ ?_
    · refine if_congr ?_ rfl rfl
      show ((tradedMomPerm N K σ i : ℕ) / (K + 1) = (tradedMomPerm N K σ j : ℕ) / (K + 1)) ↔
        ((i : ℕ) / (K + 1) = (j : ℕ) / (K + 1))
      rw [hdi, hdj]
      exact fin_perm_val_eq σ _ _
    · refine congrArg₂ (fun a b => W a b) ?_ ?_
      · exact Fin.ext (show (tradedMomPerm N K σ i : ℕ) % (K + 1) = (i : ℕ) % (K + 1) from hmi)
      · exact Fin.ext (show (tradedMomPerm N K σ j : ℕ) % (K + 1) = (j : ℕ) % (K + 1) from hmj)
  · have hπi : (tradedMomPerm N K σ i : ℕ) = (colBlockPerm (K + 1) σ ⟨(i : ℕ), hi⟩ : ℕ) :=
      appendPerm_lt _ _ i hi
    have hilt : (tradedMomPerm N K σ i : ℕ) < N * (K + 1) := by
      rw [hπi]; exact (colBlockPerm (K + 1) σ ⟨(i : ℕ), hi⟩).isLt
    have hπj : (tradedMomPerm N K σ j : ℕ) = (j : ℕ) := by
      have h2 : (tradedMomPerm N K σ j : ℕ) =
          N * (K + 1) + ((Equiv.refl (Fin K))
            ⟨(j : ℕ) - N * (K + 1), by have := j.isLt; omega⟩ : Fin K).val :=
        appendPerm_ge _ _ j (le_of_not_lt hj)
      refine h2.trans ?_
      show N * (K + 1) + ((j : ℕ) - N * (K + 1)) = (j : ℕ)
      have := j.isLt
      omega
    have hjge : ¬ (tradedMomPerm N K σ j : ℕ) < N * (K + 1) := by rw [hπj]; exact hj
    rw [dif_pos hilt, dif_neg hjge, dif_pos hi, dif_neg hj]
  · have hπj : (tradedMomPerm N K σ j : ℕ) = (colBlockPerm (K + 1) σ ⟨(j : ℕ), hj⟩ : ℕ) :=
      appendPerm_lt _ _ j hj
    have hjlt : (tradedMomPerm N K σ j : ℕ) < N * (K + 1) := by
      rw [hπj]; exact (colBlockPerm (K + 1) σ ⟨(j : ℕ), hj⟩).isLt
    have hπi : (tradedMomPerm N K σ i : ℕ) = (i : ℕ) := by
      have h2 : (tradedMomPerm N K σ i : ℕ) =
          N * (K + 1) + ((Equiv.refl (Fin K))
            ⟨(i : ℕ) - N * (K + 1), by have := i.isLt; omega⟩ : Fin K).val :=
        appendPerm_ge _ _ i (le_of_not_lt hi)
      refine h2.trans ?_
      show N * (K + 1) + ((i : ℕ) - N * (K + 1)) = (i : ℕ)
      have := i.isLt
      omega
    have hige : ¬ (tradedMomPerm N K σ i : ℕ) < N * (K + 1) := by rw [hπi]; exact hi
    rw [dif_neg hige, dif_neg hi]
    have : ¬ (tradedMomPerm N K σ i : ℕ) = (tradedMomPerm N K σ j : ℕ) := by
      rw [hπi]
      intro h
      exact absurd (h ▸ hjlt) hi
    rw [if_neg this, if_neg (show ¬ (i : ℕ) = (j : ℕ) by omega)]
  · have hπi : (tradedMomPerm N K σ i : ℕ) = (i : ℕ) := by
      have h2 : (tradedMomPerm N K σ i : ℕ) =
          N * (K + 1) + ((Equiv.refl (Fin K))
            ⟨(i : ℕ) - N * (K + 1), by have := i.isLt; omega⟩ : Fin K).val :=
        appendPerm_ge _ _ i (le_of_not_lt hi)
      refine h2.trans ?_
      show N * (K + 1) + ((i : ℕ) - N * (K + 1)) = (i : ℕ)
      have := i.isLt
      omega
    have hπj : (tradedMomPerm N K σ j : ℕ) = (j : ℕ) := by
      have h2 : (tradedMomPerm N K σ j : ℕ) =
          N * (K + 1) + ((Equiv.refl (Fin K))
            ⟨(j : ℕ) - N * (K + 1), by have := j.isLt; omega⟩ : Fin K).val :=
        appendPerm_ge _ _ j (le_of_not_lt hj)
      refine h2.trans ?_
      show N * (K + 1) + ((j : ℕ) - N * (K + 1)) = (j : ℕ)
      have := j.isLt
      omega
    have hige : ¬ (tradedMomPerm N K σ i : ℕ) < N * (K + 1) := by rw [hπi]; exact hi
    rw [dif_neg hige, dif_neg hi, hπi, hπj]

theorem matInv_submatrix {n : ℕ} (A : Mat n n) (e : Equiv.Perm (Fin n)) :
    matInv (A.submatrix ⇑e ⇑e) = (matInv A).submatrix ⇑e ⇑e := by
  unfold matInv
  rw [detQ_eq_det, detQ_eq_det, adjQ_eq_adjugate, adjQ_eq_adjugate]
  rw [show (A.submatrix ⇑e ⇑e).det = A.det from Matrix.det_submatrix_equiv_self e A]
  rw [show (A.submatrix ⇑e ⇑e).adjugate = A.adjugate.submatrix ⇑e ⇑e from
    Matrix.adjugate_submatrix_equiv_self e A]
  ext i j
  simp

theorem detQ_submatrix {n : ℕ} (A : Mat n n) (e : Equiv.Perm (Fin n)) :
    detQ (A.submatrix ⇑e ⇑e) = detQ A := by
  rw [detQ_eq_det, detQ_eq_det]
  exact Matrix.det_submatrix_equiv_self e A

theorem npInv_submatrix {n : ℕ} (A : Mat n n) (e : Equiv.Perm (Fin n)) :
    npInv (A.submatrix ⇑e ⇑e) = Except.map (fun M => M.submatrix ⇑e ⇑e) (npInv A) := by
  unfold npInv
  rw [detQ_submatrix]
  by_cases h : detQ A = 0
  · rw [if_pos h, if_pos h]
    rfl
  · rw [if_neg h, if_neg h, matInv_submatrix]
    rfl

theorem sub_submatrix_id {T N q : ℕ} (A B : Mat T N) (e : Fin q → Fin N) :
    A.submatrix id e - B.submatrix id e = (A - B).submatrix id e := by
  ext i j
  simp

theorem mdiv_submatrix {m q r : ℕ} (A : Mat m m) (c : ℚ) (e1 : Fin q → Fin m)
    (e2 : Fin r → Fin m) :
    mdiv (A.submatrix e1 e2) c = (mdiv A c).submatrix e1 e2 := by
  ext i j
  simp [mdiv]

theorem conj_submatrix {n : ℕ} (X A : Mat n n) (π : Equiv.Perm (Fin n))
    (hX : X.submatrix ⇑π ⇑π = X) :
    X * A.submatrix ⇑π ⇑π * X = (X * A * X).submatrix ⇑π ⇑π := by
  conv_lhs => rw [← hX]
  rw [Matrix.submatrix_mul_equiv X A ⇑π π ⇑π, Matrix.submatrix_mul_equiv (X * A) X ⇑π π ⇑π]

theorem tradedCovPair_perm {T N K : ℕ} (covType : String) (cfg : CovConfig)
    (xe : Mat T (N * (K + 1) + K)) (fe : Mat T K)
    (π : Equiv.Perm (Fin (N * (K + 1) + K))) :
    tradedCovPair covType cfg (xe.submatrix id ⇑π) fe =
      Except.map (fun pr => (pr.1.submatrix ⇑π ⇑π, pr.2))
        (tradedCovPair covType cfg xe fe) := by
  simp only [tradedCovPair]
  by_cases h1 : covType = "robust" ∨ covType = "heteroskedastic"
  · rw [if_pos h1, if_pos h1]
    simp only [Except.map]
    rw [gram_submatrix, mdiv_submatrix]
  · rw [if_neg h1, if_neg h1]
    by_cases h2 : covType = "kernel"
    · rw [if_pos h2, if_pos h2]
      by_cases h3 : (cfg.kernel).getD "bartlett" ∈ knownKernels
      · rw [if_pos h3, if_pos h3]
        simp only [Except.map]
        rw [covKernel_submatrix]
      · rw [if_neg h3, if_neg h3]
        rfl
    · rw [if_neg h2, if_neg h2]
      rfl

theorem tradedMomPerm_alpha {N K : ℕ} (σ : Equiv.Perm (Fin N)) (a : Fin N)
    (hw : (a : ℕ) * (K + 1) < N * (K + 1) + K) :
    (tradedMomPerm N K σ ⟨(a : ℕ) * (K + 1), hw⟩ : ℕ) = (σ a : ℕ) * (K + 1) := by
  have hlt : (a : ℕ) * (K + 1) < N * (K + 1) :=
    (Nat.mul_lt_mul_right (show 0 < K + 1 by omega)).mpr a.isLt
  have h2 : (tradedMomPerm N K σ ⟨(a : ℕ) * (K + 1), hw⟩ : ℕ) =
      (colBlockPerm (K + 1) σ ⟨(a : ℕ) * (K + 1), hlt⟩ : ℕ) :=
    appendPerm_lt _ _ _ hlt
  rw [h2]
  have hm := colBlockPerm_mod σ (⟨(a : ℕ) * (K + 1), hlt⟩ : Fin (N * (K + 1)))
  have hd := colBlockPerm_div σ (⟨(a : ℕ) * (K + 1), hlt⟩ : Fin (N * (K + 1)))
  have hm' : (colBlockPerm (K + 1) σ ⟨(a : ℕ) * (K + 1), hlt⟩ : ℕ) % (K + 1) = 0 := by
    rw [hm]
    exact Nat.mul_mod_left _ _
  have hσarg : (⟨((⟨(a : ℕ) * (K + 1), hlt⟩ : Fin (N * (K + 1))) : ℕ) / (K + 1),
      Nat.div_lt_of_lt_mul (lt_of_lt_of_eq (⟨(a : ℕ) * (K + 1), hlt⟩ :
        Fin (N * (K + 1))).isLt (Nat.mul_comm N (K + 1)))⟩ : Fin N) = a :=
    Fin.ext (show (a : ℕ) * (K + 1) / (K + 1) = (a : ℕ) from
      Nat.mul_div_cancel _ (Nat.succ_pos K))
  rw [hσarg] at hd
  have hda := Nat.div_add_mod
    (colBlockPerm (K + 1) σ ⟨(a : ℕ) * (K + 1), hlt⟩ : ℕ) (K + 1)
  rw [hd, hm', Nat.add_zero] at hda
  rw [← hda, Nat.mul_comm]

theorem alphaSlice_perm {N K : ℕ} (σ : Equiv.Perm (Fin N))
    (M : Mat (N * (K + 1) + K) (N * (K + 1) + K))
    (hA : 0 + N ≤ N * (K + 1)) (hB : 0 + N * (K + 1) ≤ N * (K + 1) + K) :
    sliceBlock 0 N hA (Matrix.of fun i j =>
      sliceBlock 0 (N * (K + 1)) hB
        (M.submatrix ⇑(tradedMomPerm N K σ) ⇑(tradedMomPerm N K σ))
        (tradedOrderF i) (tradedOrderF j)) =
    (sliceBlock 0 N hA (Matrix.of fun i j =>
      sliceBlock 0 (N * (K + 1)) hB M (tradedOrderF i) (tradedOrderF j))).submatrix
      ⇑σ ⇑σ := by
  have hNle : N ≤ N * (K + 1) := Nat.le_mul_of_pos_right N (Nat.succ_pos K)
  ext i j
  simp only [sliceBlock, Matrix.of_apply, finShift, Matrix.submatrix_apply, Nat.zero_add]
  refine congrArg₂ M ?_ ?_
  · apply Fin.ext
    rw [show (⟨(tradedOrderF (N := N) (K := K) ⟨(i : ℕ), by have := i.isLt; omega⟩ : ℕ),
        by have := (tradedOrderF (N := N) (K := K) ⟨(i : ℕ), by have := i.isLt; omega⟩).isLt; omega⟩ :
        Fin (N * (K + 1) + K)) =
      ⟨(i : ℕ) * (K + 1), by
        have h9 : (i : ℕ) * (K + 1) < N * (K + 1) :=
          (Nat.mul_lt_mul_right (show 0 < K + 1 by omega)).mpr i.isLt
        omega⟩ from
      Fin.ext (tradedOrderF_alpha i (by have := i.isLt; omega))]
    rw [tradedMomPerm_alpha σ i]
    rw [tradedOrderF_alpha (σ i) (by have := (σ i).isLt; omega)]
  · apply Fin.ext
    rw [show (⟨(tradedOrderF (N := N) (K := K) ⟨(j : ℕ), by have := j.isLt; omega⟩ : ℕ),
        by have := (tradedOrderF (N := N) (K := K) ⟨(j : ℕ), by have := j.isLt; omega⟩).isLt; omega⟩ :
        Fin (N * (K + 1) + K)) =
      ⟨(j : ℕ) * (K + 1), by
        have h9 : (j : ℕ) * (K + 1) < N * (K + 1) :=
          (Nat.mul_lt_mul_right (show 0 < K + 1 by omega)).mpr j.isLt
        omega⟩ from
      Fin.ext (tradedOrderF_alpha j (by have := j.isLt; omega))]
    rw [tradedMomPerm_alpha σ j]
    rw [tradedOrderF_alpha (σ j) (by have := (σ j).isLt; omega)]

theorem tradedFit_perm {T N K : ℕ} (pinvO : (a b : ℕ) → Mat a b → Mat b a)
    (σ : Equiv.Perm (Fin N)) (p : Mat T N) (f : Mat T K)
    (pnames fnames : List String) (ct : String) (d : Bool) (cfg : CovConfig)
    (h1 : IsMP (tradedAlphaVcvOf pinvO p f ct d cfg)
      (pinvO N N (tradedAlphaVcvOf pinvO p f ct d cfg)))
    (h2 : IsMP (tradedAlphaVcvOf pinvO (p.submatrix id ⇑σ) f ct d cfg)
      (pinvO N N (tradedAlphaVcvOf pinvO (p.submatrix id ⇑σ) f ct d cfg))) :
    isOkB (tradedFit pinvO (p.submatrix id ⇑σ) f pnames fnames ct d cfg) =
      isOkB (tradedFit pinvO p f pnames fnames ct d cfg) ∧
    (okOr tradedJunk (tradedFit pinvO (p.submatrix id ⇑σ) f pnames fnames ct d cfg)).alphas =
      (okOr tradedJunk (tradedFit pinvO p f pnames fnames ct d cfg)).alphas.submatrix ⇑σ id ∧
    (okOr tradedJunk (tradedFit pinvO (p.submatrix id ⇑σ) f pnames fnames ct d cfg)).alphaVcv =
      (okOr tradedJunk (tradedFit pinvO p f pnames fnames ct d cfg)).alphaVcv.submatrix ⇑σ ⇑σ ∧
    (okOr tradedJunk (tradedFit pinvO (p.submatrix id ⇑σ) f pnames fnames ct d cfg)).jstat =
      (okOr tradedJunk (tradedFit pinvO p f pnames fnames ct d cfg)).jstat := by
  have hb : pinvO T (K + 1) (withConst f) * (p.submatrix id ⇑σ) =
      (pinvO T (K + 1) (withConst f) * p).submatrix id ⇑σ :=
    mul_submatrix_id _ _ _
  have heps : p.submatrix id ⇑σ -
      withConst f * (pinvO T (K + 1) (withConst f) * (p.submatrix id ⇑σ)) =
      (p - withConst f * (pinvO T (K + 1) (withConst f) * p)).submatrix id ⇑σ := by
    rw [hb, mul_submatrix_id, sub_submatrix_id]
  have hxe : tradedXe (withConst f)
      (p.submatrix id ⇑σ -
        withConst f * (pinvO T (K + 1) (withConst f) * (p.submatrix id ⇑σ)))
      (demeanCols f) =
      (tradedXe (withConst f)
        (p - withConst f * (pinvO T (K + 1) (withConst f) * p))
        (demeanCols f)).submatrix id ⇑(tradedMomPerm N K σ) := by
    rw [heps, tradedXe_perm]
  have hcp : tradedCovPair ct cfg (tradedXe (withConst f)
      (p.submatrix id ⇑σ -
        withConst f * (pinvO T (K + 1) (withConst f) * (p.submatrix id ⇑σ)))
      (demeanCols f)) (demeanCols f) =
      Except.map (fun pr =>
        (pr.1.submatrix ⇑(tradedMomPerm N K σ) ⇑(tradedMomPerm N K σ), pr.2))
        (tradedCovPair ct cfg (tradedXe (withConst f)
          (p - withConst f * (pinvO T (K + 1) (withConst f) * p))
          (demeanCols f)) (demeanCols f)) := by
    rw [hxe, tradedCovPair_perm]
  rcases hE : tradedCovPair ct cfg (tradedXe (withConst f)
      (p - withConst f * (pinvO T (K + 1) (withConst f) * p))
      (demeanCols f)) (demeanCols f) with err | pr
  · rw [hE] at hcp
    simp only [Except.map] at hcp
    refine ⟨?_, ?_, ?_, ?_⟩ <;>
      simp only [tradedFit, hcp, hE, isOkB, okOr, tradedJunk] <;>
      rfl
  · obtain ⟨xeex, rpCov0⟩ := pr
    rw [hE] at hcp
    simp only [Except.map] at hcp
    have halpha : sliceBlock 0 N
        (by
          have h9 : N * 1 ≤ N * (K + 1) := Nat.mul_le_mul_left N (by omega)
          omega)
        (Matrix.of fun i j =>
          sliceBlock 0 (N * (K + 1)) (by omega)
            (mdiv (tradedXpxi N K (pinvO (K + 1) (K + 1)
                (mdiv ((withConst f)ᵀ * withConst f) (T : ℚ))) *
              (xeex.submatrix ⇑(tradedMomPerm N K σ) ⇑(tradedMomPerm N K σ)) *
              tradedXpxi N K (pinvO (K + 1) (K + 1)
                (mdiv ((withConst f)ᵀ * withConst f) (T : ℚ))))
              ((T : ℚ) - (if d then (1 : ℚ) else 0) * ((K : ℚ) + 1)))
            (tradedOrderF i) (tradedOrderF j)) =
        (sliceBlock 0 N
          (by
            have h9 : N * 1 ≤ N * (K + 1) := Nat.mul_le_mul_left N (by omega)
            omega)
          (Matrix.of fun i j =>
            sliceBlock 0 (N * (K + 1)) (by omega)
              (mdiv (tradedXpxi N K (pinvO (K + 1) (K + 1)
                  (mdiv ((withConst f)ᵀ * withConst f) (T : ℚ))) *
                xeex *
                tradedXpxi N K (pinvO (K + 1) (K + 1)
                  (mdiv ((withConst f)ᵀ * withConst f) (T : ℚ))))
                ((T : ℚ) - (if d then (1 : ℚ) else 0) * ((K : ℚ) + 1)))
              (tradedOrderF i) (tradedOrderF j))).submatrix ⇑σ ⇑σ := by
      rw [conj_submatrix _ _ _ (tradedXpxi_perm _ σ), mdiv_submatrix]
      exact alphaSlice_perm σ _ _ _
    simp only [tradedAlphaVcvOf, hE] at h1
    simp only [tradedAlphaVcvOf, hcp] at h2
    rw [halpha] at h2
    have hpinv := isMP_unique h2 (isMP_submatrix σ σ h1)
    refine ⟨by simp only [tradedFit, hcp, hE, isOkB], ?_, ?_, ?_⟩
    · simp only [tradedFit, hcp, hE, okOr]
      rfl
    · simp only [tradedFit, hcp, hE, okOr]
      exact halpha
    · simp only [tradedFit, hcp, hE, okOr]
      rw [halpha, hpinv, hb]
      have hal : (Matrix.of fun i (_ : Fin 1) =>
          ((pinvO T (K + 1) (withConst f) * p).submatrix id ⇑σ) ⟨0, Nat.succ_pos K⟩ i) =
          (Matrix.of fun i (_ : Fin 1) =>
            (pinvO T (K + 1) (withConst f) * p) ⟨0, Nat.succ_pos K⟩ i).submatrix ⇑σ id := by
        ext i j
        simp
      rw [hal]
      rw [Matrix.transpose_submatrix]
      rw [Matrix.submatrix_mul_equiv _ _ id σ ⇑σ]
      rw [Matrix.submatrix_mul_equiv _ _ id σ id]
      rw [Matrix.submatrix_id_id]

theorem mul_submatrix_left {m n p q : ℕ} (A : Mat m n) (B : Mat n p) (e : Fin q → Fin m) :
    A.submatrix e id * B = (A * B).submatrix e id := by
  ext i j
  simp [Matrix.mul_apply]

theorem twoPassBetas_perm {N K : ℕ} (e : Bool) (b : Mat (K + 1) N)
    (σ : Equiv.Perm (Fin N)) :
    twoPassBetas e (b.submatrix id ⇑σ) = (twoPassBetas e b).submatrix ⇑σ id := by
  cases e
  · ext i j
    simp only [twoPassBetas, Matrix.of_apply, Matrix.submatrix_apply, id_eq]
  · ext i j
    simp [twoPassBetas]

theorem twoPassBlock_perm {N K : ℕ} (e : Bool) (betas : Mat N (K + nrfOf e))
    (lam : Mat (K + nrfOf e) 1) (alphas : Mat N 1) (σ : Equiv.Perm (Fin N))
    (q : Fin N) (a : Fin (K + nrfOf e)) (c : Fin (K + 1)) :
    twoPassBlock e (betas.submatrix ⇑σ id) lam (alphas.submatrix ⇑σ id) q a c =
      twoPassBlock e betas lam alphas (σ q) a c := by
  unfold twoPassBlock
  by_cases hc : (c : ℕ) = 0
  · rw [dif_pos hc, dif_pos hc]
  · rw [dif_neg hc, dif_neg hc]
    simp only [Matrix.submatrix_apply, id_eq]
    cases e <;> rfl

theorem sliceBlock_appendPerm {A B : ℕ} (pL : Equiv.Perm (Fin A))
    (pR : Equiv.Perm (Fin B)) (M : Mat (A + B) (A + B)) (h : A + B ≤ A + B) :
    sliceBlock A B h (M.submatrix ⇑(appendPerm pL pR) ⇑(appendPerm pL pR)) =
      (sliceBlock A B h M).submatrix ⇑pR ⇑pR := by
  ext i j
  simp only [sliceBlock, Matrix.of_apply, Matrix.submatrix_apply, finShift]
  refine congrArg₂ M ?_ ?_
  · apply Fin.ext
    have hge : A ≤ ((⟨A + (i : ℕ), by have := i.isLt; omega⟩ : Fin (A + B)) : ℕ) := by
      show A ≤ A + (i : ℕ)
      omega
    rw [appendPerm_ge pL pR _ hge]
    have e1 : (⟨((⟨A + (i : ℕ), by have := i.isLt; omega⟩ : Fin (A + B)) : ℕ) - A,
        by have := i.isLt; omega⟩ : Fin B) = i :=
      Fin.ext (show A + (i : ℕ) - A = (i : ℕ) by omega)
    rw [e1]
  · apply Fin.ext
    have hge : A ≤ ((⟨A + (j : ℕ), by have := j.isLt; omega⟩ : Fin (A + B)) : ℕ) := by
      show A ≤ A + (j : ℕ)
      omega
    rw [appendPerm_ge pL pR _ hge]
    have e1 : (⟨((⟨A + (j : ℕ), by have := j.isLt; omega⟩ : Fin (A + B)) : ℕ) - A,
        by have := j.isLt; omega⟩ : Fin B) = j :=
      Fin.ext (show A + (j : ℕ) - A = (j : ℕ) by omega)
    rw [e1]

theorem twoPassMomPerm_lt {N K : ℕ} {e : Bool} (σ : Equiv.Perm (Fin N))
    (c : Fin (tpDim N K e)) (h : (c : ℕ) < N * (K + 1)) :
    (twoPassMomPerm N K e σ c : ℕ) =
      (colBlockPerm (K + 1) σ ⟨(c : ℕ), h⟩ : ℕ) := by
  have h3 : (c : ℕ) < N * (K + 1) + (K + nrfOf e) := by omega
  have step1 := appendPerm_lt
    (appendPerm (colBlockPerm (K + 1) σ) (Equiv.refl (Fin (K + nrfOf e)))) σ c h3
  have step2 := appendPerm_lt (colBlockPerm (K + 1) σ) (Equiv.refl (Fin (K + nrfOf e)))
    (⟨(c : ℕ), h3⟩ : Fin (N * (K + 1) + (K + nrfOf e))) h
  exact step1.trans step2

theorem twoPassMomPerm_mid {N K : ℕ} {e : Bool} (σ : Equiv.Perm (Fin N))
    (c : Fin (tpDim N K e)) (h2 : N * (K + 1) ≤ (c : ℕ))
    (h3 : (c : ℕ) < N * (K + 1) + (K + nrfOf e)) :
    (twoPassMomPerm N K e σ c : ℕ) = (c : ℕ) := by
  have step1 := appendPerm_lt
    (appendPerm (colBlockPerm (K + 1) σ) (Equiv.refl (Fin (K + nrfOf e)))) σ c h3
  have step2 := appendPerm_ge (colBlockPerm (K + 1) σ) (Equiv.refl (Fin (K + nrfOf e)))
    (⟨(c : ℕ), h3⟩ : Fin (N * (K + 1) + (K + nrfOf e))) h2
  refine step1.trans (step2.trans ?_)
  show N * (K + 1) + ((c : ℕ) - N * (K + 1)) = (c : ℕ)
  omega

theorem twoPassMomPerm_last {N K : ℕ} {e : Bool} (σ : Equiv.Perm (Fin N))
    (c : Fin (tpDim N K e)) (h3 : N * (K + 1) + (K + nrfOf e) ≤ (c : ℕ)) :
    (twoPassMomPerm N K e σ c : ℕ) =
      N * (K + 1) + (K + nrfOf e) +
        (σ ⟨(c : ℕ) - (N * (K + 1) + (K + nrfOf e)), by
          have := c.isLt
          simp only [tpDim] at this
          omega⟩ : ℕ) :=
  appendPerm_ge _ _ c h3

set_option maxHeartbeats 1000000 in
theorem twoPassMoments_perm {T N K : ℕ} (e : Bool) (fc : Mat T (K + 1))
    (eps : Mat T N) (betas : Mat N (K + nrfOf e)) (pe : Mat T N)
    (alphas : Mat N 1) (σ : Equiv.Perm (Fin N)) :
    twoPassMoments e fc (eps.submatrix id ⇑σ) (betas.submatrix ⇑σ id)
      (pe.submatrix id ⇑σ) (alphas.submatrix ⇑σ id) =
      (twoPassMoments e fc eps betas pe alphas).submatrix id
        ⇑(twoPassMomPerm N K e σ) := by
  have hM2 : (pe.submatrix id ⇑σ) * (betas.submatrix ⇑σ id) = pe * betas :=
    submatrix_mul_cancel pe betas σ
  ext t c
  simp only [twoPassMoments, hcat, hada, Matrix.of_apply, Matrix.submatrix_apply, id_eq]
  by_cases h3 : (c : ℕ) < N * (K + 1) + (K + nrfOf e)
  · by_cases h2 : (c : ℕ) < N * (K + 1)
    · have hv := twoPassMomPerm_lt σ c h2
      have hρ2 : (twoPassMomPerm N K e σ c : ℕ) < N * (K + 1) := by
        rw [hv]; exact (colBlockPerm (K + 1) σ ⟨(c : ℕ), h2⟩).isLt
      have hρ3 : (twoPassMomPerm N K e σ c : ℕ) < N * (K + 1) + (K + nrfOf e) := by
        omega
      rw [dif_pos h3, dif_pos h2, dif_pos hρ3, dif_pos hρ2]
      rw [tileCols_apply _ _ _ _ (Nat.mod_lt _ (Nat.succ_pos K)),
        tileCols_apply _ _ _ _ (Nat.mod_lt _ (Nat.succ_pos K)),
        epsRepCross_apply, epsRepCross_apply]
      have hmod : (twoPassMomPerm N K e σ c : ℕ) % (K + 1) = (c : ℕ) % (K + 1) := by
        rw [hv]; exact colBlockPerm_mod σ _
      have hdiv : (twoPassMomPerm N K e σ c : ℕ) / (K + 1) =
          (σ ⟨(c : ℕ) / (K + 1), Nat.div_lt_of_lt_mul
            (lt_of_lt_of_eq h2 (Nat.mul_comm N (K + 1)))⟩ : ℕ) := by
        rw [hv]; exact colBlockPerm_div σ _
      simp only [Matrix.submatrix_apply, id_eq]
      refine congrArg₂ (· * ·) ?_ ?_
      · exact congrArg (fc t) (Fin.ext hmod.symm)
      · exact congrArg (eps t) (Fin.ext hdiv.symm)
    · have hv : (twoPassMomPerm N K e σ c : ℕ) = (c : ℕ) :=
        twoPassMomPerm_mid σ c (le_of_not_lt h2) h3
      have hρ3 : (twoPassMomPerm N K e σ c : ℕ) < N * (K + 1) + (K + nrfOf e) := by
        omega
      have hρ2 : ¬ (twoPassMomPerm N K e σ c : ℕ) < N * (K + 1) := by
        omega
      rw [dif_pos h3, dif_neg h2, dif_pos hρ3, dif_neg hρ2]
      rw [hM2]
      exact congrArg ((pe * betas) t) (Fin.ext
        (show (c : ℕ) - N * (K + 1) =
          (twoPassMomPerm N K e σ c : ℕ) - N * (K + 1) by omega))
  · have hv := twoPassMomPerm_last σ c (le_of_not_lt h3)
    have hρ3 : ¬ (twoPassMomPerm N K e σ c : ℕ) < N * (K + 1) + (K + nrfOf e) := by
      have := (σ ⟨(c : ℕ) - (N * (K + 1) + (K + nrfOf e)), by
        have := c.isLt
        simp only [tpDim] at this
        omega⟩).isLt
      omega
    rw [dif_neg h3, dif_neg hρ3]
    refine congrArg₂ (· - ·) ?_ ?_
    · refine congrArg (pe t) (Fin.ext ?_)
      show (σ ⟨(c : ℕ) - (N * (K + 1) + (K + nrfOf e)), by
          have := c.isLt
          simp only [tpDim] at this
          omega⟩ : Fin N).val =
        (twoPassMomPerm N K e σ c : ℕ) - (N * (K + 1) + (K + nrfOf e))
      omega
    · refine congrArg (fun x => alphas x ⟨0, Nat.one_pos⟩) (Fin.ext ?_)
      show (σ ⟨(c : ℕ) - (N * (K + 1) + (K + nrfOf e)), by
          have := c.isLt
          simp only [tpDim] at this
          omega⟩ : Fin N).val =
        (twoPassMomPerm N K e σ c : ℕ) - (N * (K + 1) + (K + nrfOf e))
      omega

theorem npKron_eye_one_apply {N L : ℕ} (hL : 0 < L) (B : Mat 1 L)
    (a : Fin (N * 1)) (b : Fin (N * L)) :
    npKron (eyeQ N) B a b =
      (if (a : ℕ) / 1 = (b : ℕ) / L then 1 else 0) *
        B ⟨(a : ℕ) % 1, Nat.mod_lt _ Nat.one_pos⟩ ⟨(b : ℕ) % L, Nat.mod_lt _ hL⟩ := rfl

set_option maxHeartbeats 1000000 in
theorem twoPassG_perm {N K : ℕ} (e : Bool) (fpf : Mat (K + 1) (K + 1))
    (betas : Mat N (K + nrfOf e)) (lam : Mat (K + nrfOf e) 1) (alphas : Mat N 1)
    (σ : Equiv.Perm (Fin N)) :
    twoPassG e fpf (betas.submatrix ⇑σ id) lam (alphas.submatrix ⇑σ id) =
      (twoPassG e fpf betas lam alphas).submatrix ⇑(twoPassMomPerm N K e σ)
        ⇑(twoPassMomPerm N K e σ) := by
  have hbb : (betas.submatrix ⇑σ id)ᵀ * (betas.submatrix ⇑σ id) = betasᵀ * betas := by
    rw [Matrix.transpose_submatrix, submatrix_mul_cancel]
  ext i j
  simp only [twoPassG, Matrix.of_apply, Matrix.submatrix_apply]
  by_cases hi1 : (i : ℕ) < N * (K + 1)
  · have hvi := twoPassMomPerm_lt σ i hi1
    have hρi1 : (twoPassMomPerm N K e σ i : ℕ) < N * (K + 1) := by
      rw [hvi]; exact (colBlockPerm (K + 1) σ ⟨(i : ℕ), hi1⟩).isLt
    have hdi : (twoPassMomPerm N K e σ i : ℕ) / (K + 1) =
        (σ ⟨(i : ℕ) / (K + 1), Nat.div_lt_of_lt_mul
          (lt_of_lt_of_eq hi1 (Nat.mul_comm N (K + 1)))⟩ : ℕ) := by
      rw [hvi]; exact colBlockPerm_div σ _
    have hmi : (twoPassMomPerm N K e σ i : ℕ) % (K + 1) = (i : ℕ) % (K + 1) := by
      rw [hvi]; exact colBlockPerm_mod σ _
    rw [dif_pos hi1, dif_pos hρi1]
    by_cases hj1 : (j : ℕ) < N * (K + 1)
    · have hvj := twoPassMomPerm_lt σ j hj1
      have hρj1 : (twoPassMomPerm N K e σ j : ℕ) < N * (K + 1) := by
        rw [hvj]; exact (colBlockPerm (K + 1) σ ⟨(j : ℕ), hj1⟩).isLt
      have hdj : (twoPassMomPerm N K e σ j : ℕ) / (K + 1) =
          (σ ⟨(j : ℕ) / (K + 1), Nat.div_lt_of_lt_mul
            (lt_of_lt_of_eq hj1 (Nat.mul_comm N (K + 1)))⟩ : ℕ) := by
        rw [hvj]; exact colBlockPerm_div σ _
      have hmj : (twoPassMomPerm N K e σ j : ℕ) % (K + 1) = (j : ℕ) % (K + 1) := by
        rw [hvj]; exact colBlockPerm_mod σ _
      rw [dif_pos hj1, dif_pos hρj1]
      rw [npKron_eye_apply (Nat.succ_pos K), npKron_eye_apply (Nat.succ_pos K)]
      refine congrArg₂ (· * ·) ?_ ?_
      · refine if_congr ?_ rfl rfl
        show ((i : ℕ) / (K + 1) = (j : ℕ) / (K + 1)) ↔
          ((twoPassMomPerm N K e σ i : ℕ) / (K + 1) =
            (twoPassMomPerm N K e σ j : ℕ) / (K + 1))
        rw [hdi, hdj]
        exact (fin_perm_val_eq σ
          ⟨(i : ℕ) / (K + 1), Nat.div_lt_of_lt_mul
            (lt_of_lt_of_eq hi1 (Nat.mul_comm N (K + 1)))⟩
          ⟨(j : ℕ) / (K + 1), Nat.div_lt_of_lt_mul
            (lt_of_lt_of_eq hj1 (Nat.mul_comm N (K + 1)))⟩).symm
      · refine congrArg₂ (fun a b => fpf a b) ?_ ?_
        · exact Fin.ext (show (i : ℕ) % (K + 1) =
            (twoPassMomPerm N K e σ i : ℕ) % (K + 1) from hmi.symm)
        · exact Fin.ext (show (j : ℕ) % (K + 1) =
            (twoPassMomPerm N K e σ j : ℕ) % (K + 1) from hmj.symm)
    · by_cases hj2 : (j : ℕ) < N * (K + 1) + (K + nrfOf e)
      · have hvj : (twoPassMomPerm N K e σ j : ℕ) = (j : ℕ) :=
          twoPassMomPerm_mid σ j (le_of_not_lt hj1) hj2
        have hρj1 : ¬ (twoPassMomPerm N K e σ j : ℕ) < N * (K + 1) := by omega
        rw [dif_neg hj1, dif_neg hρj1]
        rw [if_neg (show ¬ (i : ℕ) = (j : ℕ) by omega),
          if_neg (show ¬ (twoPassMomPerm N K e σ i : ℕ) =
            (twoPassMomPerm N K e σ j : ℕ) by omega)]
      · have hvj := twoPassMomPerm_last σ j (le_of_not_lt hj2)
        have hρj1 : ¬ (twoPassMomPerm N K e σ j : ℕ) < N * (K + 1) := by omega
        rw [dif_neg hj1, dif_neg hρj1]
        rw [if_neg (show ¬ (i : ℕ) = (j : ℕ) by omega),
          if_neg (show ¬ (twoPassMomPerm N K e σ i : ℕ) =
            (twoPassMomPerm N K e σ j : ℕ) by omega)]
  · by_cases hi2 : (i : ℕ) < N * (K + 1) + (K + nrfOf e)
    · have hvi : (twoPassMomPerm N K e σ i : ℕ) = (i : ℕ) :=
        twoPassMomPerm_mid σ i (le_of_not_lt hi1) hi2
      have hρi1 : ¬ (twoPassMomPerm N K e σ i : ℕ) < N * (K + 1) := by omega
      have hρi2 : (twoPassMomPerm N K e σ i : ℕ) < N * (K + 1) + (K + nrfOf e) := by
        omega
      rw [dif_neg hi1, dif_neg hρi1, dif_pos hi2, dif_pos hρi2]
      by_cases hj1 : (j : ℕ) < N * (K + 1)
      · have hvj := twoPassMomPerm_lt σ j hj1
        have hρj1 : (twoPassMomPerm N K e σ j : ℕ) < N * (K + 1) := by
          rw [hvj]; exact (colBlockPerm (K + 1) σ ⟨(j : ℕ), hj1⟩).isLt
        have hdj : (twoPassMomPerm N K e σ j : ℕ) / (K + 1) =
            (σ ⟨(j : ℕ) / (K + 1), Nat.div_lt_of_lt_mul
              (lt_of_lt_of_eq hj1 (Nat.mul_comm N (K + 1)))⟩ : ℕ) := by
          rw [hvj]; exact colBlockPerm_div σ _
        have hmj : (twoPassMomPerm N K e σ j : ℕ) % (K + 1) = (j : ℕ) % (K + 1) := by
          rw [hvj]; exact colBlockPerm_mod σ _
        rw [dif_pos hj1, dif_pos hρj1]
        rw [twoPassBlock_perm]
        have ha : σ ((idxModDiv (K + 1) N
            ⟨(j : ℕ), lt_of_lt_of_eq hj1 (Nat.mul_comm N (K + 1))⟩).2) =
            (idxModDiv (K + 1) N ⟨(twoPassMomPerm N K e σ j : ℕ),
              lt_of_lt_of_eq hρj1 (Nat.mul_comm N (K + 1))⟩).2 :=
          Fin.ext (by
            show (σ ⟨(j : ℕ) / (K + 1), by
              have := Nat.div_lt_of_lt_mul
                (lt_of_lt_of_eq hj1 (Nat.mul_comm N (K + 1)))
              exact this⟩ : Fin N).val =
              (twoPassMomPerm N K e σ j : ℕ) / (K + 1)
            omega)
        have hc : (idxModDiv (K + 1) N
            ⟨(j : ℕ), lt_of_lt_of_eq hj1 (Nat.mul_comm N (K + 1))⟩).1 =
            (idxModDiv (K + 1) N ⟨(twoPassMomPerm N K e σ j : ℕ),
              lt_of_lt_of_eq hρj1 (Nat.mul_comm N (K + 1))⟩).1 :=
          Fin.ext (by
            show (j : ℕ) % (K + 1) = (twoPassMomPerm N K e σ j : ℕ) % (K + 1)
            omega)
        have hb : (⟨(i : ℕ) - N * (K + 1), by omega⟩ : Fin (K + nrfOf e)) =
            (⟨(twoPassMomPerm N K e σ i : ℕ) - N * (K + 1), by omega⟩ :
              Fin (K + nrfOf e)) :=
          Fin.ext (by
            show (i : ℕ) - N * (K + 1) =
              (twoPassMomPerm N K e σ i : ℕ) - N * (K + 1)
            omega)
        rw [ha, hc, hb]
      · by_cases hj2 : (j : ℕ) < N * (K + 1) + (K + nrfOf e)
        · have hvj : (twoPassMomPerm N K e σ j : ℕ) = (j : ℕ) :=
            twoPassMomPerm_mid σ j (le_of_not_lt hj1) hj2
          have hρj1 : ¬ (twoPassMomPerm N K e σ j : ℕ) < N * (K + 1) := by omega
          have hρj2 : (twoPassMomPerm N K e σ j : ℕ) <
              N * (K + 1) + (K + nrfOf e) := by omega
          rw [dif_neg hj1, dif_neg hρj1, dif_pos hj2, dif_pos hρj2, hbb]
          refine congrArg₂ (fun a b => (betasᵀ * betas) a b) ?_ ?_
          · exact Fin.ext (show (i : ℕ) - N * (K + 1) =
              (twoPassMomPerm N K e σ i : ℕ) - N * (K + 1) by omega)
          · exact Fin.ext (show (j : ℕ) - N * (K + 1) =
              (twoPassMomPerm N K e σ j : ℕ) - N * (K + 1) by omega)
        · have hvj := twoPassMomPerm_last σ j (le_of_not_lt hj2)
          have hρj1 : ¬ (twoPassMomPerm N K e σ j : ℕ) < N * (K + 1) := by omega
          have hρj2 : ¬ (twoPassMomPerm N K e σ j : ℕ) <
              N * (K + 1) + (K + nrfOf e) := by omega
          rw [dif_neg hj1, dif_neg hρj1, dif_neg hj2, dif_neg hρj2]
          rw [if_neg (show ¬ (i : ℕ) = (j : ℕ) by omega),
            if_neg (show ¬ (twoPassMomPerm N K e σ i : ℕ) =
              (twoPassMomPerm N K e σ j : ℕ) by omega)]
    · have hvi := twoPassMomPerm_last σ i (le_of_not_lt hi2)
      have hρi1 : ¬ (twoPassMomPerm N K e σ i : ℕ) < N * (K + 1) := by omega
      have hρi2 : ¬ (twoPassMomPerm N K e σ i : ℕ) <
          N * (K + 1) + (K + nrfOf e) := by omega
      rw [dif_neg hi1, dif_neg hρi1, dif_neg hi2, dif_neg hρi2]
      by_cases hj1 : (j : ℕ) < N * (K + 1)
      · have hvj := twoPassMomPerm_lt σ j hj1
        have hρj1 : (twoPassMomPerm N K e σ j : ℕ) < N * (K + 1) := by
          rw [hvj]; exact (colBlockPerm (K + 1) σ ⟨(j : ℕ), hj1⟩).isLt
        have hdj : (twoPassMomPerm N K e σ j : ℕ) / (K + 1) =
            (σ ⟨(j : ℕ) / (K + 1), Nat.div_lt_of_lt_mul
              (lt_of_lt_of_eq hj1 (Nat.mul_comm N (K + 1)))⟩ : ℕ) := by
          rw [hvj]; exact colBlockPerm_div σ _
        have hmj : (twoPassMomPerm N K e σ j : ℕ) % (K + 1) = (j : ℕ) % (K + 1) := by
          rw [hvj]; exact colBlockPerm_mod σ _
        rw [dif_pos hj1, dif_pos hρj1]
        rw [npKron_eye_one_apply (Nat.succ_pos K), npKron_eye_one_apply (Nat.succ_pos K)]
        have hsub : (twoPassMomPerm N K e σ i : ℕ) -
            (N * (K + 1) + (K + nrfOf e)) =
            (σ ⟨(i : ℕ) - (N * (K + 1) + (K + nrfOf e)), by
              have := i.isLt
              simp only [tpDim] at this
              omega⟩ : ℕ) := by omega
        refine congrArg₂ (· * ·) ?_ ?_
        · refine if_congr ?_ rfl rfl
          show ((i : ℕ) - (N * (K + 1) + (K + nrfOf e))) / 1 = (j : ℕ) / (K + 1) ↔
            ((twoPassMomPerm N K e σ i : ℕ) -
              (N * (K + 1) + (K + nrfOf e))) / 1 =
              (twoPassMomPerm N K e σ j : ℕ) / (K + 1)
          rw [Nat.div_one, Nat.div_one, hsub, hdj]
          exact (fin_perm_val_eq σ
            ⟨(i : ℕ) - (N * (K + 1) + (K + nrfOf e)), by
              have := i.isLt
              simp only [tpDim] at this
              omega⟩
            ⟨(j : ℕ) / (K + 1), Nat.div_lt_of_lt_mul
              (lt_of_lt_of_eq hj1 (Nat.mul_comm N (K + 1)))⟩).symm
        · refine congrArg₂ (fun a b => (zeroLam e lam)ᵀ a b) ?_ ?_
          · exact Fin.ext (show ((i : ℕ) - (N * (K + 1) + (K + nrfOf e))) % 1 =
              ((twoPassMomPerm N K e σ i : ℕ) -
                (N * (K + 1) + (K + nrfOf e))) % 1 by
              rw [Nat.mod_one, Nat.mod_one])
          · exact Fin.ext (show (j : ℕ) % (K + 1) =
              (twoPassMomPerm N K e σ j : ℕ) % (K + 1) from hmj.symm)
      · by_cases hj2 : (j : ℕ) < N * (K + 1) + (K + nrfOf e)
        · have hvj : (twoPassMomPerm N K e σ j : ℕ) = (j : ℕ) :=
            twoPassMomPerm_mid σ j (le_of_not_lt hj1) hj2
          have hρj1 : ¬ (twoPassMomPerm N K e σ j : ℕ) < N * (K + 1) := by omega
          rw [dif_neg hj1, dif_neg hρj1]
          rw [if_neg (show ¬ (i : ℕ) = (j : ℕ) by omega),
            if_neg (show ¬ (twoPassMomPerm N K e σ i : ℕ) =
              (twoPassMomPerm N K e σ j : ℕ) by omega)]
        · have hvj := twoPassMomPerm_last σ j (le_of_not_lt hj2)
          have hρj1 : ¬ (twoPassMomPerm N K e σ j : ℕ) < N * (K + 1) := by omega
          rw [dif_neg hj1, dif_neg hρj1]
          exact if_congr
            (fin_perm_val_eq (twoPassMomPerm N K e σ) i j).symm rfl rfl

theorem submatrix_perm_mul {n : ℕ} (A B : Mat n n) (e : Equiv.Perm (Fin n)) :
    (A.submatrix ⇑e ⇑e) * (B.submatrix ⇑e ⇑e) = (A * B).submatrix ⇑e ⇑e := by
  rw [Matrix.submatrix_mul_equiv A B ⇑e e ⇑e]

theorem submatrix_mul_perm_left {m n : ℕ} (X : Mat m n) (Y : Mat n n)
    (e : Equiv.Perm (Fin n)) :
    (X.submatrix id ⇑e) * (Y.submatrix ⇑e ⇑e) = (X * Y).submatrix id ⇑e := by
  rw [Matrix.submatrix_mul_equiv X Y id e ⇑e]

theorem sub_mul_submatrix {T N L : ℕ} (p : Mat T N) (C : Mat T L) (B : Mat L N)
    (σ : Equiv.Perm (Fin N)) :
    p.submatrix id ⇑σ - C * (B.submatrix id ⇑σ) = (p - C * B).submatrix id ⇑σ := by
  ext t i
  simp [Matrix.mul_apply]

theorem sandwich_perm {n : ℕ} (A B : Mat n n) (e : Equiv.Perm (Fin n)) (c : ℚ) :
    mdiv ((A.submatrix ⇑e ⇑e) * (B.submatrix ⇑e ⇑e) * (A.submatrix ⇑e ⇑e)ᵀ) c =
      (mdiv (A * B * Aᵀ) c).submatrix ⇑e ⇑e := by
  rw [Matrix.transpose_submatrix, submatrix_perm_mul, submatrix_perm_mul, mdiv_submatrix]

theorem quad_perm {N : ℕ} (x : Mat N 1) (Y : Mat N N) (e : Equiv.Perm (Fin N)) :
    (x.submatrix ⇑e id)ᵀ * (Y.submatrix ⇑e ⇑e) * (x.submatrix ⇑e id) = xᵀ * Y * x := by
  rw [Matrix.transpose_submatrix, submatrix_mul_perm_left, submatrix_mul_cancel]

theorem peOf_perm {T N : ℕ} (p : Mat T N) (E : Mat N 1) (σ : Equiv.Perm (Fin N)) :
    (Matrix.of fun t i =>
      (p.submatrix id ⇑σ) t i - (E.submatrix ⇑σ id) i ⟨0, Nat.one_pos⟩) =
      (Matrix.of fun t i => p t i - E i ⟨0, Nat.one_pos⟩).submatrix id ⇑σ := by
  ext t i
  simp

set_option maxHeartbeats 2000000 in
theorem twoPassFit_perm {T N K : ℕ}
    (lstsqO : (m a q : ℕ) → Mat m a → Mat m q → Mat a q) (e : Bool)
    (σ : Equiv.Perm (Fin N)) (p : Mat T N) (f : Mat T K)
    (pnames fnames : List String) (ct : String)
    (hls1 : lstsqO T (K + 1) N (withConst f) (p.submatrix id ⇑σ) =
      (lstsqO T (K + 1) N (withConst f) p).submatrix id ⇑σ)
    (hls2 : lstsqO N (K + nrfOf e) 1
        ((twoPassBetas e (lstsqO T (K + 1) N (withConst f) p)).submatrix ⇑σ id)
        ((meanCols p).submatrix ⇑σ id) =
      lstsqO N (K + nrfOf e) 1
        (twoPassBetas e (lstsqO T (K + 1) N (withConst f) p)) (meanCols p)) :
    isOkB (twoPassFit lstsqO e (p.submatrix id ⇑σ) f pnames fnames ct) =
      isOkB (twoPassFit lstsqO e p f pnames fnames ct) ∧
    (okOr twoPassJunk (twoPassFit lstsqO e (p.submatrix id ⇑σ) f pnames fnames ct)).alphas =
      (okOr twoPassJunk (twoPassFit lstsqO e p f pnames fnames ct)).alphas.submatrix ⇑σ id ∧
    (okOr twoPassJunk (twoPassFit lstsqO e (p.submatrix id ⇑σ) f pnames fnames ct)).alphaVcv =
      (okOr twoPassJunk (twoPassFit lstsqO e p f pnames fnames ct)).alphaVcv.submatrix ⇑σ ⇑σ ∧
    (okOr twoPassJunk (twoPassFit lstsqO e (p.submatrix id ⇑σ) f pnames fnames ct)).jstat =
      (okOr twoPassJunk (twoPassFit lstsqO e p f pnames fnames ct)).jstat := by
  rcases hEG : npInv (twoPassG e
      (mdiv ((withConst f)ᵀ * withConst f) (T : ℚ))
      (twoPassBetas e (lstsqO T (K + 1) N (withConst f) p))
      (lstsqO N (K + nrfOf e) 1
        (twoPassBetas e (lstsqO T (K + 1) N (withConst f) p)) (meanCols p))
      (meanCols (Matrix.of fun t i => p t i -
        (twoPassBetas e (lstsqO T (K + 1) N (withConst f) p) *
          lstsqO N (K + nrfOf e) 1
            (twoPassBetas e (lstsqO T (K + 1) N (withConst f) p)) (meanCols p))
          i ⟨0, Nat.one_pos⟩))) with gerr | Ginv
  · refine ⟨?_, ?_, ?_, ?_⟩ <;>
      simp only [twoPassFit, twoPassMomPerm, hls1, hls2, twoPassBetas_perm,
        meanCols_submatrix, mul_submatrix_left, sub_mul_submatrix,
        peOf_perm, twoPassMoments_perm, gram_submatrix, mdiv_submatrix,
        twoPassG_perm, npInv_submatrix, hEG, Except.map, isOkB, okOr,
        twoPassJunk] <;>
      rfl
  · rcases hEA : npInv (sliceBlock
        (N * (K + 1) + (K + nrfOf e)) N le_rfl
        (mdiv (Ginv *
          mdiv ((twoPassMoments e (withConst f)
              (p - withConst f * lstsqO T (K + 1) N (withConst f) p)
              (twoPassBetas e (lstsqO T (K + 1) N (withConst f) p))
              (Matrix.of fun t i => p t i -
                (twoPassBetas e (lstsqO T (K + 1) N (withConst f) p) *
                  lstsqO N (K + nrfOf e) 1
                    (twoPassBetas e (lstsqO T (K + 1) N (withConst f) p))
                    (meanCols p)) i ⟨0, Nat.one_pos⟩)
              (meanCols (Matrix.of fun t i => p t i -
                (twoPassBetas e (lstsqO T (K + 1) N (withConst f) p) *
                  lstsqO N (K + nrfOf e) 1
                    (twoPassBetas e (lstsqO T (K + 1) N (withConst f) p))
                    (meanCols p)) i ⟨0, Nat.one_pos⟩)))ᵀ *
            twoPassMoments e (withConst f)
              (p - withConst f * lstsqO T (K + 1) N (withConst f) p)
              (twoPassBetas e (lstsqO T (K + 1) N (withConst f) p))
              (Matrix.of fun t i => p t i -
                (twoPassBetas e (lstsqO T (K + 1) N (withConst f) p) *
                  lstsqO N (K + nrfOf e) 1
                    (twoPassBetas e (lstsqO T (K + 1) N (withConst f) p))
                    (meanCols p)) i ⟨0, Nat.one_pos⟩)
              (meanCols (Matrix.of fun t i => p t i -
                (twoPassBetas e (lstsqO T (K + 1) N (withConst f) p) *
                  lstsqO N (K + nrfOf e) 1
                    (twoPassBetas e (lstsqO T (K + 1) N (withConst f) p))
                    (meanCols p)) i ⟨0, Nat.one_pos⟩))) (T : ℚ) *
          Ginvᵀ) (T : ℚ))) with aerr | aInv
    · refine ⟨?_, ?_, ?_, ?_⟩ <;>
        simp only [twoPassFit, twoPassMomPerm, hls1, hls2, twoPassBetas_perm,
          meanCols_submatrix, mul_submatrix_left, sub_mul_submatrix,
          peOf_perm, twoPassMoments_perm, gram_submatrix, mdiv_submatrix,
          twoPassG_perm, npInv_submatrix, hEG, Except.map,
          sandwich_perm, sliceBlock_appendPerm, hEA, quad_perm, isOkB, okOr,
          twoPassJunk] <;>
        rfl
    · refine ⟨?_, ?_, ?_, ?_⟩ <;>
        simp only [twoPassFit, twoPassMomPerm, hls1, hls2, twoPassBetas_perm,
          meanCols_submatrix, mul_submatrix_left, sub_mul_submatrix,
          peOf_perm, twoPassMoments_perm, gram_submatrix, mdiv_submatrix,
          twoPassG_perm, npInv_submatrix, hEG, Except.map,
          sandwich_perm, sliceBlock_appendPerm, hEA, quad_perm, isOkB, okOr,
          twoPassJunk] <;>
        rfl

/-- C9: permuting the portfolio columns permutes the returned alphas and the
returned alpha covariance congruently and leaves the joint test statistic
unchanged, for the traded and the two-pass estimators. -/
theorem claim_C9 {T N K : ℕ} (pinvO : (a b : ℕ) → Mat a b → Mat b a)
    (lstsqO : (m a q : ℕ) → Mat m a → Mat m q → Mat a q) (e : Bool)
    (σ : Equiv.Perm (Fin N)) (p : Mat T N) (f : Mat T K)
    (pnames fnames : List String) (ct1 ct2 : String) (d : Bool) (cfg : CovConfig)
    (h1 : IsMP (tradedAlphaVcvOf pinvO p f ct1 d cfg)
      (pinvO N N (tradedAlphaVcvOf pinvO p f ct1 d cfg)))
    (h2 : IsMP (tradedAlphaVcvOf pinvO (p.submatrix id ⇑σ) f ct1 d cfg)
      (pinvO N N (tradedAlphaVcvOf pinvO (p.submatrix id ⇑σ) f ct1 d cfg)))
    (hls1 : lstsqO T (K + 1) N (withConst f) (p.submatrix id ⇑σ) =
      (lstsqO T (K + 1) N (withConst f) p).submatrix id ⇑σ)
    (hls2 : lstsqO N (K + nrfOf e) 1
        ((twoPassBetas e (lstsqO T (K + 1) N (withConst f) p)).submatrix ⇑σ id)
        ((meanCols p).submatrix ⇑σ id) =
      lstsqO N (K + nrfOf e) 1
        (twoPassBetas e (lstsqO T (K + 1) N (withConst f) p)) (meanCols p)) :
    (isOkB (tradedFit pinvO (p.submatrix id ⇑σ) f pnames fnames ct1 d cfg) =
        isOkB (tradedFit pinvO p f pnames fnames ct1 d cfg) ∧
      (okOr tradedJunk (tradedFit pinvO (p.submatrix id ⇑σ) f pnames fnames ct1 d cfg)).alphas =
        (okOr tradedJunk (tradedFit pinvO p f pnames fnames ct1 d cfg)).alphas.submatrix ⇑σ id ∧
      (okOr tradedJunk (tradedFit pinvO (p.submatrix id ⇑σ) f pnames fnames ct1 d cfg)).alphaVcv =
        (okOr tradedJunk (tradedFit pinvO p f pnames fnames ct1 d cfg)).alphaVcv.submatrix ⇑σ ⇑σ ∧
      (okOr tradedJunk (tradedFit pinvO (p.submatrix id ⇑σ) f pnames fnames ct1 d cfg)).jstat =
        (okOr tradedJunk (tradedFit pinvO p f pnames fnames ct1 d cfg)).jstat) ∧
    (isOkB (twoPassFit lstsqO e (p.submatrix id ⇑σ) f pnames fnames ct2) =
        isOkB (twoPassFit lstsqO e p f pnames fnames ct2) ∧
      (okOr twoPassJunk (twoPassFit lstsqO e (p.submatrix id ⇑σ) f pnames fnames ct2)).alphas =
        (okOr twoPassJunk (twoPassFit lstsqO e p f pnames fnames ct2)).alphas.submatrix ⇑σ id ∧
      (okOr twoPassJunk (twoPassFit lstsqO e (p.submatrix id ⇑σ) f pnames fnames ct2)).alphaVcv =
        (okOr twoPassJunk (twoPassFit lstsqO e p f pnames fnames ct2)).alphaVcv.submatrix ⇑σ ⇑σ ∧
      (okOr twoPassJunk (twoPassFit lstsqO e (p.submatrix id ⇑σ) f pnames fnames ct2)).jstat =
        (okOr twoPassJunk (twoPassFit lstsqO e p f pnames fnames ct2)).jstat) :=
  ⟨tradedFit_perm pinvO σ p f pnames fnames ct1 d cfg h1 h2,
   twoPassFit_perm lstsqO e σ p f pnames fnames ct2 hls1 hls2⟩

set_option maxRecDepth 100000 in
set_option maxHeartbeats 2000000 in
/-- C9 witness: the permutation equivariance at a concrete two-portfolio
input under the transposition of the two portfolios. -/
theorem claim_C9_witness :
    (okOr tradedJunk (tradedFit sqPinv (w9P.submatrix id ⇑swap2) w9F
        ["p1", "p2"] ["f1"] "robust" true ⟨none, none⟩)).alphas =
      (okOr tradedJunk (tradedFit sqPinv w9P w9F
        ["p1", "p2"] ["f1"] "robust" true ⟨none, none⟩)).alphas.submatrix ⇑swap2 id ∧
    (okOr tradedJunk (tradedFit sqPinv (w9P.submatrix id ⇑swap2) w9F
        ["p1", "p2"] ["f1"] "robust" true ⟨none, none⟩)).jstat =
      (okOr tradedJunk (tradedFit sqPinv w9P w9F
        ["p1", "p2"] ["f1"] "robust" true ⟨none, none⟩)).jstat ∧
    (okOr twoPassJunk (twoPassFit neLstsq true (w9P.submatrix id ⇑swap2) w9F
        ["p1", "p2"] ["f1"] "robust")).alphaVcv =
      (okOr twoPassJunk (twoPassFit neLstsq true w9P w9F
        ["p1", "p2"] ["f1"] "robust")).alphaVcv.submatrix ⇑swap2 ⇑swap2 ∧
    (okOr twoPassJunk (twoPassFit neLstsq true (w9P.submatrix id ⇑swap2) w9F
        ["p1", "p2"] ["f1"] "robust")).jstat =
      (okOr twoPassJunk (twoPassFit neLstsq true w9P w9F
        ["p1", "p2"] ["f1"] "robust")).jstat := by
  have h := claim_C9 (T := 3) (N := 2) (K := 1) sqPinv neLstsq true swap2 w9P w9F
    ["p1", "p2"] ["f1"] "robust" "robust" true ⟨none, none⟩
    (by unfold IsMP; decide) (by unfold IsMP; decide) (by decide) (by decide)
  exact ⟨h.1.2.1, h.1.2.2.2, h.2.2.2.1, h.2.2.2.2⟩
